import Mathlib

/-! # PartialUpdateTree: a tree with subtree caches and incremental recomputation

A shallow embedding of `PartialUpdateTree.cpp`.

Modelling decisions

* Objects reached through pointers live in explicit stores.  A `Node*` or
  `std::shared_ptr<Node>` is the index of the node in `nodeData` (nodes are
  only ever appended, so the index of a node never changes).  A `Cache*` is a
  `CachePtr`: either the tree's own member `finalCache`, or the handle of a
  cache owned by the caller.  `Tree.mem` maps every cache pointer to the
  current value of the object it points to.
* `cacheQueue` is a `std::vector<Cache*>` whose back is the active cache; it
  is modelled as a list whose head is the back of the vector.
* C++ `int` is modelled as `Int`; the arena is assumed to hold fewer than
  `2^31` nodes, so `int(nodeData.size()) - 1` does not wrap.
* Operations that C++ leaves undefined (`operator[]` out of range, `back()`
  or `pop_back()` on an empty vector) return `none`.  The two loops whose
  termination depends on the shape of the heap (the parent walk of
  `Node::markDirty`, the recursion of `Tree::submitNode`) carry a fuel
  argument and return `none` when it runs out.
-/

namespace PartialUpdateTree

/-! ## Cache -/

/-- The class `Cache`: a dirty flag and the recorded id sequence. -/
structure Cache where
  dirty : Bool
  cacheData : List Int
  deriving DecidableEq

namespace Cache

/-- The constructor `Cache()`: `dirty = true`, no data. -/
def new : Cache := { dirty := true, cacheData := [] }

def getDirty (c : Cache) : Bool := c.dirty

def markDirty (c : Cache) : Cache := { c with dirty := true }

def finishCaching (c : Cache) : Cache := { c with dirty := false }

def submitNode (c : Cache) (id : Int) : Cache := { c with cacheData := c.cacheData ++ [id] }

def reset (c : Cache) : Cache := { c with cacheData := [] }

def getCachedData (c : Cache) : List Int := c.cacheData

/-- The method `Cache::submitList`: the data of `childCache` is copied first and then
appended to this cache's data. -/
def submitList (c childCache : Cache) : Cache :=
  { c with cacheData := c.cacheData ++ childCache.getCachedData }

end Cache

/-! ## Node -/

/-- The class `Node`.  `parent` and `children` hold arena indices, `subtreeCache` the
handle of a caller-owned cache (`none` is `nullptr`). -/
structure Node where
  id : Int
  parent : Option Nat
  children : List Nat
  subtreeCache : Option Nat
  deriving DecidableEq

/-- The constructor `Node()`: id 0, no parent, no children, no cache. -/
def Node.new : Node := { id := 0, parent := none, children := [], subtreeCache := none }

/-! ## Tree -/

/-- A `Cache*`: the tree's member `finalCache` or a cache owned by the caller. -/
inductive CachePtr where
  | final : CachePtr
  | user (k : Nat) : CachePtr
  deriving DecidableEq

/-- The class `Tree` together with the cache objects it reaches through pointers. -/
structure Tree where
  root : Nat
  nodeData : List Node
  cacheQueue : List CachePtr
  mem : CachePtr → Cache

namespace Tree

/-- The member `finalCache`. -/
def finalCache (t : Tree) : Cache := t.mem CachePtr.final

/-- The constructor `Tree::Tree()`; every cache object is as constructed. -/
def new : Tree :=
  { root := 0, nodeData := [Node.new], cacheQueue := [], mem := fun _ => Cache.new }

def beginCaching (t : Tree) (cache : CachePtr) : Tree :=
  { t with
    mem := Function.update t.mem cache (t.mem cache).reset
    cacheQueue := cache :: t.cacheQueue }

def endCaching (t : Tree) (cache : CachePtr) : Option Tree :=
  match t.cacheQueue with
  | [] => none
  | _ :: rest =>
    some { t with
      mem := Function.update t.mem cache (t.mem cache).finishCaching
      cacheQueue := rest }

def submitCache (t : Tree) (cache : CachePtr) : Option Tree :=
  match t.cacheQueue with
  | [] => none
  | top :: _ =>
    some { t with mem := Function.update t.mem top ((t.mem top).submitList (t.mem cache)) }

/-- The statement `cacheQueue.back()->submitNode(id)`. -/
def submitToBack (t : Tree) (id : Int) : Option Tree :=
  match t.cacheQueue with
  | [] => none
  | top :: _ =>
    some { t with mem := Function.update t.mem top ((t.mem top).submitNode id) }

/-- A loop `for (auto child : children) body(child)` over a state that may fail. -/
def forEach (body : Tree → Nat → Option Tree) : Tree → List Nat → Option Tree
  | t, [] => some t
  | t, child :: rest =>
    match body t child with
    | none => none
    | some t1 => forEach body t1 rest

/-- The method `Tree::submitNode`, with the recursion depth bounded by `fuel`. -/
def submitNode : Nat → Tree → Nat → Option Tree
  | 0, _, _ => none
  | fuel + 1, t, node =>
    match t.nodeData[node]? with
    | none => none
    | some nd =>
      match nd.subtreeCache with
      | some k =>
        if (t.mem (CachePtr.user k)).getDirty then
          match (t.beginCaching (CachePtr.user k)).submitToBack nd.id with
          | none => none
          | some t1 =>
            match forEach (submitNode fuel) t1 nd.children with
            | none => none
            | some t2 =>
              match t2.endCaching (CachePtr.user k) with
              | none => none
              | some t3 => t3.submitCache (CachePtr.user k)
        else t.submitCache (CachePtr.user k)
      | none =>
        match t.submitToBack nd.id with
        | none => none
        | some t1 => forEach (submitNode fuel) t1 nd.children

/-- The method `Tree::submitOrderedTreeNodes`; what it prints is the data of `finalCache`
in the resulting state. -/
def submitOrderedTreeNodes (t : Tree) : Option Tree :=
  match (t.beginCaching CachePtr.final).submitNode t.nodeData.length t.root with
  | none => none
  | some t1 => t1.endCaching CachePtr.final

/-- The loop of `Node::markDirty`, started at the pointer `node`. -/
def markDirtyLoop (nodes : List Node) :
    Nat → (CachePtr → Cache) → Option Nat → Option (CachePtr → Cache)
  | _, mem, none => some mem
  | 0, _, some _ => none
  | fuel + 1, mem, some n =>
    match nodes[n]? with
    | none => none
    | some nd =>
      match nd.subtreeCache with
      | some k =>
        markDirtyLoop nodes fuel
          (Function.update mem (CachePtr.user k) (mem (CachePtr.user k)).markDirty) nd.parent
      | none => markDirtyLoop nodes fuel mem nd.parent

/-- The method `Node::markDirty` called on the node at index `node`. -/
def markDirty (t : Tree) (node : Nat) : Option Tree :=
  match t.nodeData[node]? with
  | none => none
  | some nd =>
    match markDirtyLoop t.nodeData t.nodeData.length t.mem nd.parent with
    | none => none
    | some m => some { t with mem := m }

/-- The method `Node::setParent` called on the node at index `child`. -/
def setParent (t : Tree) (child parent : Nat) : Option Tree :=
  match t.nodeData[child]? with
  | none => none
  | some nd =>
    markDirty { t with nodeData := t.nodeData.set child { nd with parent := some parent } } child

/-- The method `Node::onChildAdded` called on the node at index `parent`. -/
def onChildAdded (t : Tree) (parent child : Nat) : Option Tree :=
  match t.nodeData[parent]? with
  | none => none
  | some nd =>
    some { t with
      nodeData := t.nodeData.set parent { nd with children := nd.children ++ [child] } }

/-- The method `Node::attachSubtreeCache` called on the node at index `node`. -/
def attachSubtreeCache (t : Tree) (node cache : Nat) : Option Tree :=
  match t.nodeData[node]? with
  | none => none
  | some nd =>
    markDirty { t with nodeData := t.nodeData.set node { nd with subtreeCache := some cache } }
      node

/-- The two clamping statements at the head of `insertTreeNode` and `attachCache`. -/
def clampId (t : Tree) (parentId : Int) : Int :=
  max (min parentId ((t.nodeData.length : Int) - 1)) 0

/-- The method `Tree::insertTreeNode`. -/
def insertTreeNode (t : Tree) (parentId : Int) : Option Tree :=
  let parentId := t.clampId parentId
  let t1 : Tree := { t with nodeData := t.nodeData ++ [Node.new] }
  let child := t1.nodeData.length - 1
  match t1.nodeData[child]? with
  | none => none
  | some nd =>
    let t2 : Tree :=
      { t1 with nodeData := t1.nodeData.set child { nd with id := (t1.nodeData.length : Int) - 1 } }
    if parentId.toNat < t2.nodeData.length then
      match t2.setParent child parentId.toNat with
      | none => none
      | some t3 => t3.onChildAdded parentId.toNat child
    else none

/-- The method `Tree::attachCache`; `cache` is the handle of a caller-owned cache. -/
def attachCache (t : Tree) (parentId : Int) (cache : Nat) : Option Tree :=
  let parentId := t.clampId parentId
  if parentId.toNat < t.nodeData.length then
    t.attachSubtreeCache parentId.toNat cache
  else none

/-- The method `Tree::reset`. -/
def reset (t : Tree) : Tree := { t with nodeData := [Node.new], root := 0 }

end Tree

/-! ## Specification vocabulary -/

/-- The parent pointer of the node at index `i` (`none` for `nullptr` and for an index
outside the arena). -/
def parentOf (nodes : List Node) (i : Nat) : Option Nat :=
  match nodes[i]? with
  | none => none
  | some nd => nd.parent

/-- The cache attached to the node at index `i`, if any. -/
def cacheAt (nodes : List Node) (i : Nat) : Option Nat :=
  match nodes[i]? with
  | none => none
  | some nd => nd.subtreeCache

/-- Whether the caller-owned cache `k` is attached to some node of the arena. -/
def isAttached (nodes : List Node) (k : Nat) : Bool :=
  nodes.any fun nd => decide (nd.subtreeCache = some k)

/-- The depth-first preorder id sequence of the subtree rooted at index `i`: the id of
the node, then the sequence of each child in child-list order.  The depth of the
descent is bounded by `fuel`. -/
def preorderFuel (nodes : List Node) : Nat → Nat → List Int
  | 0, _ => []
  | fuel + 1, i =>
    match nodes[i]? with
    | none => []
    | some nd => nd.id :: (nd.children.map (preorderFuel nodes fuel)).flatten

/-- The depth-first preorder id sequence of the subtree rooted at index `i`.  No branch of
an arena is longer than the number of its nodes. -/
def preorder (nodes : List Node) (i : Nat) : List Int :=
  preorderFuel nodes nodes.length i

/-- The node `a` is the node `m` or an ancestor of it: `a` is reached from `m` by
following parent pointers zero or more times. -/
inductive AncOrSelf (nodes : List Node) : Nat → Nat → Prop where
  | refl (m : Nat) : AncOrSelf nodes m m
  | step {a p m : Nat} : parentOf nodes m = some p → AncOrSelf nodes a p → AncOrSelf nodes a m

/-- The node `a` is a strict ancestor of the node `m`. -/
def Ancestor (nodes : List Node) (a m : Nat) : Prop :=
  ∃ p, parentOf nodes m = some p ∧ AncOrSelf nodes a p

/-- Well-formedness of the arena: ids are indices, the root has no parent, every other
node has a parent of smaller index, child lists and parent pointers agree, and no child
list repeats a node. -/
structure ArenaWF (nodes : List Node) : Prop where
  nonempty : 0 < nodes.length
  id_eq : ∀ (i : Nat) (nd : Node), nodes[i]? = some nd → nd.id = (i : Int)
  root_parent : parentOf nodes 0 = none
  parent_lt : ∀ i, 0 < i → i < nodes.length → ∃ p, parentOf nodes i = some p ∧ p < i
  child_lt : ∀ (p : Nat) (nd : Node) (c : Nat), nodes[p]? = some nd → c ∈ nd.children →
    c < nodes.length
  child_iff : ∀ (p : Nat) (nd : Node) (c : Nat), nodes[p]? = some nd → c < nodes.length →
    (c ∈ nd.children ↔ parentOf nodes c = some p)
  child_nodup : ∀ (p : Nat) (nd : Node), nodes[p]? = some nd → nd.children.Nodup

/-- No cache is attached to two nodes. -/
def NoAlias (nodes : List Node) : Prop :=
  ∀ i j k, cacheAt nodes i = some k → cacheAt nodes j = some k → i = j

/-- Every attached cache that is clean holds the preorder sequence of the subtree of the
node it is attached to. -/
def CachesValid (t : Tree) : Prop :=
  ∀ i k, cacheAt t.nodeData i = some k → (t.mem (CachePtr.user k)).dirty = false →
    (t.mem (CachePtr.user k)).cacheData = preorder t.nodeData i

/-- Dirtiness is upward closed: above a dirty attached cache every attached cache is
dirty. -/
def UpClosed (t : Tree) : Prop :=
  ∀ a m ka km, AncOrSelf t.nodeData a m → cacheAt t.nodeData a = some ka →
    cacheAt t.nodeData m = some km → (t.mem (CachePtr.user km)).dirty = true →
    (t.mem (CachePtr.user ka)).dirty = true

/-- Every attached cache is clean. -/
def AllClean (t : Tree) : Prop :=
  ∀ i k, cacheAt t.nodeData i = some k → (t.mem (CachePtr.user k)).dirty = false

/-- The state of a tree between two public operations. -/
structure Tree.WF (t : Tree) : Prop where
  arena : ArenaWF t.nodeData
  root_eq : t.root = 0
  queue_empty : t.cacheQueue = []

/-- The states reachable from a new tree by `insertTreeNode`, `attachCache` and
`submitOrderedTreeNodes` when every call `attachCache(nodeId, k)` made in state `t`
satisfies `contract t nodeId k`. -/
inductive ReachableUnder (contract : Tree → Int → Nat → Prop) : Tree → Prop where
  | new : ReachableUnder contract Tree.new
  | insert {t t1 : Tree} (parentId : Int) :
      ReachableUnder contract t → t.insertTreeNode parentId = some t1 →
      ReachableUnder contract t1
  | attach {t t1 : Tree} (nodeId : Int) (k : Nat) :
      ReachableUnder contract t → contract t nodeId k →
      t.attachCache nodeId k = some t1 → ReachableUnder contract t1
  | submit {t t1 : Tree} :
      ReachableUnder contract t → t.submitOrderedTreeNodes = some t1 →
      ReachableUnder contract t1

/-- The caller contract: the cache handed to `attachCache` is dirty and attached to no
node at the time of the call. -/
def CallerContract (t : Tree) (_nodeId : Int) (k : Nat) : Prop :=
  (t.mem (CachePtr.user k)).dirty = true ∧ isAttached t.nodeData k = false

/-- No cache is ever attached to two nodes at the same time: the cache handed to
`attachCache` is attached to no node other than the one that receives it.  Nothing is
required of its dirty flag. -/
def Unshared (t : Tree) (nodeId : Int) (k : Nat) : Prop :=
  ∀ j : Nat, cacheAt t.nodeData j = some k → (j : Int) = t.clampId nodeId

/-- The cache handed to `attachCache` is dirty and attached to no node other than the one
that receives it. -/
def UnsharedDirty (t : Tree) (nodeId : Int) (k : Nat) : Prop :=
  (t.mem (CachePtr.user k)).dirty = true ∧ Unshared t nodeId k

/-- The states reachable under the caller contract. -/
def Reachable (t : Tree) : Prop := ReachableUnder CallerContract t

/-- The state that differs from `t` only in that the caller-owned cache `k` has been
marked dirty (the caller calling `Cache::markDirty` on it). -/
def Tree.withDirty (t : Tree) (k : Nat) : Tree :=
  { t with mem := Function.update t.mem (CachePtr.user k) (t.mem (CachePtr.user k)).markDirty }

/-! ## Vocabulary of the traversal proof -/

/-- What holds of the state whenever `Tree::submitNode` is entered during a traversal.
The caches on the stack are the ones being rebuilt: they are dirty and attached only to
nodes of index below `b`, the nodes still to be visited having index at least `b`. -/
structure TravInv (t : Tree) (b : Nat) : Prop where
  arena : ArenaWF t.nodeData
  noalias : NoAlias t.nodeData
  valid : CachesValid t
  stack_dirty : ∀ k, CachePtr.user k ∈ t.cacheQueue → (t.mem (CachePtr.user k)).dirty = true
  stack_above : ∀ k j, CachePtr.user k ∈ t.cacheQueue → cacheAt t.nodeData j = some k → j < b

/-- The effect of visiting the nodes `cs` in order, from state `t` to state `t1`, while
`top` is the active cache. -/
structure VisitPost (t t1 : Tree) (cs : List Nat) (top : CachePtr) : Prop where
  nodeData_eq : t1.nodeData = t.nodeData
  root_eq : t1.root = t.root
  queue_eq : t1.cacheQueue = t.cacheQueue
  top_dirty : (t1.mem top).dirty = (t.mem top).dirty
  top_data : (t1.mem top).cacheData
    = (t.mem top).cacheData ++ (cs.map (preorder t.nodeData)).flatten
  frame : ∀ p, p ≠ top → t1.mem p = t.mem p ∨
    ∃ k m c, p = CachePtr.user k ∧ c ∈ cs ∧ AncOrSelf t.nodeData c m ∧
      cacheAt t.nodeData m = some k ∧ (t1.mem p).dirty = false ∧
      (t1.mem p).cacheData = preorder t.nodeData m
  clean : UpClosed t → ∀ c m k, c ∈ cs → AncOrSelf t.nodeData c m →
    cacheAt t.nodeData m = some k → (t1.mem (CachePtr.user k)).dirty = false

/-! ## Vocabulary of the mutation proofs -/

/-- The arena that `insertTreeNode` produces from `nodes` when the clamped parent index is
`p` and `ndp` is the node stored there: the new node is appended, with the next id and
parent `p`, and becomes the last child of `p`. -/
def growArena (nodes : List Node) (p : Nat) (ndp : Node) : List Node :=
  (nodes ++ [({ id := (nodes.length : Int), parent := some p, children := [],
                subtreeCache := none } : Node)]).set p
    { ndp with children := ndp.children ++ [nodes.length] }

/-- The invariant of the states reachable under the caller contract. -/
structure Tree.Inv (t : Tree) : Prop where
  wf : t.WF
  noalias : NoAlias t.nodeData
  valid : CachesValid t
  upClosed : UpClosed t

/-! ## Concrete runs -/

/-- The state an operation results in, for the concrete runs below (all of which succeed). -/
def Tree.result (r : Option Tree) : Tree := r.getD Tree.new

/-- The scenario of the specification: three nodes inserted under the root. -/
def scenario1 : Tree := Tree.result (Tree.new.insertTreeNode 0)
def scenario2 : Tree := Tree.result (scenario1.insertTreeNode 0)
def scenario3 : Tree := Tree.result (scenario2.insertTreeNode 0)
/-- The scenario after the first traversal. -/
def scenario4 : Tree := Tree.result scenario3.submitOrderedTreeNodes
/-- The scenario after the new cache 0 has been attached to node 1. -/
def scenario5 : Tree := Tree.result (scenario4.attachCache 1 0)
def scenario6 : Tree := Tree.result scenario5.submitOrderedTreeNodes
/-- The scenario after node 4 has been inserted under node 1. -/
def scenario7 : Tree := Tree.result (scenario6.insertTreeNode 1)
def scenario8 : Tree := Tree.result scenario7.submitOrderedTreeNodes

/-- A chain 0 - 1 - 2 with cache 0 on node 1 and cache 1 on the root, traversed once. -/
def chain1 : Tree := Tree.result (Tree.new.insertTreeNode 0)
def chain2 : Tree := Tree.result (chain1.insertTreeNode 1)
def chain3 : Tree := Tree.result (chain2.attachCache 1 0)
def chain4 : Tree := Tree.result (chain3.attachCache 0 1)
def chain5 : Tree := Tree.result chain4.submitOrderedTreeNodes

/-- A run that re-attaches a clean cache: cache 0 is attached to node 1 and built, node 1
then receives cache 1, and cache 0, now attached nowhere, is attached to the root. -/
def stale1 : Tree := Tree.result (Tree.new.insertTreeNode 0)
def stale2 : Tree := Tree.result (stale1.attachCache 1 0)
def stale3 : Tree := Tree.result stale2.submitOrderedTreeNodes
def stale4 : Tree := Tree.result (stale3.attachCache 1 1)
def stale5 : Tree := Tree.result (stale4.attachCache 0 0)

/-! ## Vocabulary of the structural claims -/

/-- The call `a->submitList(b)` on the memory that holds the cache objects. -/
def submitListAt (mem : CachePtr → Cache) (a b : CachePtr) : CachePtr → Cache :=
  Function.update mem a ((mem a).submitList (mem b))

/-- The states reachable from a new tree by the four public operations `insertTreeNode`,
`attachCache`, `submitOrderedTreeNodes` and `reset`, with no condition on the arguments. -/
inductive PublicReachable : Tree → Prop where
  | new : PublicReachable Tree.new
  | insert {t t1 : Tree} (parentId : Int) :
      PublicReachable t → t.insertTreeNode parentId = some t1 → PublicReachable t1
  | attach {t t1 : Tree} (nodeId : Int) (k : Nat) :
      PublicReachable t → t.attachCache nodeId k = some t1 → PublicReachable t1
  | submit {t t1 : Tree} :
      PublicReachable t → t.submitOrderedTreeNodes = some t1 → PublicReachable t1
  | reset {t : Tree} : PublicReachable t → PublicReachable t.reset

/-- The states reachable from a new tree, or from any tree that has just been reset, by
`insertTreeNode` and `attachCache`, with no condition on the arguments. -/
inductive EditReachable : Tree → Prop where
  | new : EditReachable Tree.new
  | reset (t : Tree) : EditReachable t.reset
  | insert {t t1 : Tree} (parentId : Int) :
      EditReachable t → t.insertTreeNode parentId = some t1 → EditReachable t1
  | attach {t t1 : Tree} (nodeId : Int) (k : Nat) :
      EditReachable t → t.attachCache nodeId k = some t1 → EditReachable t1

/-- The loop over a child list, for a body that also reports the nodes it visited. -/
def forEachVisits (body : Tree → Nat → Option (Tree × List Nat)) :
    Tree → List Nat → Option (Tree × List Nat)
  | t, [] => some (t, [])
  | t, child :: rest =>
    match body t child with
    | none => none
    | some (t1, v1) =>
      match forEachVisits body t1 rest with
      | none => none
      | some (t2, v2) => some (t2, v1 ++ v2)

/-- The method `Tree::submitNode` instrumented with the list of the nodes it is called on
(itself and its recursive calls), in call order.  The state it computes is the one of
`Tree.submitNode`. -/
def submitNodeVisits : Nat → Tree → Nat → Option (Tree × List Nat)
  | 0, _, _ => none
  | fuel + 1, t, node =>
    match t.nodeData[node]? with
    | none => none
    | some nd =>
      match nd.subtreeCache with
      | some k =>
        if (t.mem (CachePtr.user k)).getDirty then
          match (t.beginCaching (CachePtr.user k)).submitToBack nd.id with
          | none => none
          | some t1 =>
            match forEachVisits (submitNodeVisits fuel) t1 nd.children with
            | none => none
            | some (t2, vs) =>
              match t2.endCaching (CachePtr.user k) with
              | none => none
              | some t3 =>
                match t3.submitCache (CachePtr.user k) with
                | none => none
                | some t4 => some (t4, node :: vs)
        else
          match t.submitCache (CachePtr.user k) with
          | none => none
          | some t4 => some (t4, [node])
      | none =>
        match t.submitToBack nd.id with
        | none => none
        | some t1 =>
          match forEachVisits (submitNodeVisits fuel) t1 nd.children with
          | none => none
          | some (t2, vs) => some (t2, node :: vs)

/-- The method `Tree::submitNode` instrumented with the list of the nodes whose attached
cache it rebuilds, in order: a node is recorded when the call on it finds its cache dirty
and runs `beginCaching` ... `endCaching` on it.  A clean cache that is only copied by
`submitCache` is not recorded.  The state it computes is the one of `Tree.submitNode`. -/
def submitNodeRebuilds : Nat → Tree → Nat → Option (Tree × List Nat)
  | 0, _, _ => none
  | fuel + 1, t, node =>
    match t.nodeData[node]? with
    | none => none
    | some nd =>
      match nd.subtreeCache with
      | some k =>
        if (t.mem (CachePtr.user k)).getDirty then
          match (t.beginCaching (CachePtr.user k)).submitToBack nd.id with
          | none => none
          | some t1 =>
            match forEachVisits (submitNodeRebuilds fuel) t1 nd.children with
            | none => none
            | some (t2, rs) =>
              match t2.endCaching (CachePtr.user k) with
              | none => none
              | some t3 =>
                match t3.submitCache (CachePtr.user k) with
                | none => none
                | some t4 => some (t4, node :: rs)
        else
          match t.submitCache (CachePtr.user k) with
          | none => none
          | some t4 => some (t4, [])
      | none =>
        match t.submitToBack nd.id with
        | none => none
        | some t1 => forEachVisits (submitNodeRebuilds fuel) t1 nd.children

/-! # Theorems -/

/-! ## The arena: parents, ancestors, preorder -/

theorem parentOf_lt_length {nodes : List Node} {i p : Nat} (h : parentOf nodes i = some p) :
    i < nodes.length := by
  by_contra hlt
  have hnone : nodes[i]? = none := List.getElem?_eq_none (Nat.le_of_not_lt hlt)
  simp [parentOf, hnone] at h

theorem cacheAt_lt_length {nodes : List Node} {i k : Nat} (h : cacheAt nodes i = some k) :
    i < nodes.length := by
  by_contra hlt
  have hnone : nodes[i]? = none := List.getElem?_eq_none (Nat.le_of_not_lt hlt)
  simp [cacheAt, hnone] at h

theorem parentOf_of_getElem {nodes : List Node} {i : Nat} {nd : Node} (h : nodes[i]? = some nd) :
    parentOf nodes i = nd.parent := by
  simp [parentOf, h]

theorem cacheAt_of_getElem {nodes : List Node} {i : Nat} {nd : Node} (h : nodes[i]? = some nd) :
    cacheAt nodes i = nd.subtreeCache := by
  simp [cacheAt, h]

theorem ArenaWF.parentOf_lt {nodes : List Node} (h : ArenaWF nodes) {i p : Nat}
    (hp : parentOf nodes i = some p) : p < i := by
  have hi : i < nodes.length := parentOf_lt_length hp
  rcases Nat.eq_zero_or_pos i with h0 | hpos
  · subst h0
    rw [h.root_parent] at hp
    exact absurd hp (by simp)
  · obtain ⟨q, hq, hlt⟩ := h.parent_lt i hpos hi
    rw [hq] at hp
    cases hp
    exact hlt

theorem ArenaWF.child_parent {nodes : List Node} (h : ArenaWF nodes) {p c : Nat} {nd : Node}
    (hnd : nodes[p]? = some nd) (hc : c ∈ nd.children) : parentOf nodes c = some p :=
  (h.child_iff p nd c hnd (h.child_lt p nd c hnd hc)).1 hc

theorem ArenaWF.child_gt {nodes : List Node} (h : ArenaWF nodes) {p c : Nat} {nd : Node}
    (hnd : nodes[p]? = some nd) (hc : c ∈ nd.children) : p < c :=
  h.parentOf_lt (h.child_parent hnd hc)

theorem AncOrSelf.trans {nodes : List Node} {a b m : Nat} (hab : AncOrSelf nodes a b)
    (hbm : AncOrSelf nodes b m) : AncOrSelf nodes a m := by
  induction hbm with
  | refl => exact hab
  | step hp _ ih => exact AncOrSelf.step hp ih

theorem AncOrSelf.le {nodes : List Node} (h : ArenaWF nodes) {a m : Nat}
    (ham : AncOrSelf nodes a m) : a ≤ m := by
  induction ham with
  | refl => exact Nat.le_refl _
  | step hp _ ih => exact Nat.le_trans ih (Nat.le_of_lt (h.parentOf_lt hp))

theorem AncOrSelf.of_child {nodes : List Node} (h : ArenaWF nodes) {p c m : Nat} {nd : Node}
    (hnd : nodes[p]? = some nd) (hc : c ∈ nd.children) (hcm : AncOrSelf nodes c m) :
    AncOrSelf nodes p m :=
  AncOrSelf.trans (AncOrSelf.step (h.child_parent hnd hc) (AncOrSelf.refl p)) hcm

/-- A proper descendant of `i` lies below one of the children of `i`. -/
theorem AncOrSelf.descend {nodes : List Node} (h : ArenaWF nodes) {i m : Nat} {nd : Node}
    (hnd : nodes[i]? = some nd) (him : AncOrSelf nodes i m) (hne : m ≠ i) :
    ∃ c, c ∈ nd.children ∧ AncOrSelf nodes c m := by
  induction him with
  | refl => exact absurd rfl hne
  | @step p m hp hanc ih =>
    by_cases hpi : p = i
    · subst hpi
      exact ⟨m, (h.child_iff p nd m hnd (parentOf_lt_length hp)).2 hp, AncOrSelf.refl m⟩
    · obtain ⟨c, hc, hcp⟩ := ih hpi
      exact ⟨c, hc, AncOrSelf.step hp hcp⟩

/-- Every node of a well-formed arena is the root or a descendant of it. -/
theorem ArenaWF.root_anc {nodes : List Node} (h : ArenaWF nodes) :
    ∀ m, m < nodes.length → AncOrSelf nodes 0 m := by
  intro m
  induction m using Nat.strong_induction_on with
  | _ m ih =>
    intro hm
    rcases Nat.eq_zero_or_pos m with h0 | hpos
    · subst h0
      exact AncOrSelf.refl 0
    · obtain ⟨p, hp, hlt⟩ := h.parent_lt m hpos hm
      exact AncOrSelf.step hp (ih p hlt (Nat.lt_trans hlt hm))

theorem preorderFuel_succ {nodes : List Node} (h : ArenaWF nodes) :
    ∀ fuel i, nodes.length - i ≤ fuel →
      preorderFuel nodes (fuel + 1) i = preorderFuel nodes fuel i := by
  intro fuel
  induction fuel with
  | zero =>
    intro i hi
    have hnone : nodes[i]? = none := List.getElem?_eq_none (by omega)
    simp [preorderFuel, hnone]
  | succ f ih =>
    intro i hi
    rw [preorderFuel, preorderFuel]
    cases hnd : nodes[i]? with
    | none => rfl
    | some nd =>
      simp only
      congr 2
      apply List.map_congr_left
      intro c hc
      have hgt : i < c := h.child_gt hnd hc
      exact ih c (by omega)

theorem preorderFuel_add {nodes : List Node} (h : ArenaWF nodes) (fuel i : Nat)
    (hi : nodes.length - i ≤ fuel) (d : Nat) :
    preorderFuel nodes (fuel + d) i = preorderFuel nodes fuel i := by
  induction d with
  | zero => rfl
  | succ d ih =>
    rw [← Nat.add_assoc, preorderFuel_succ h (fuel + d) i (by omega), ih]

/-- Any fuel that covers the distance to the end of the arena gives the preorder. -/
theorem preorderFuel_eq_preorder {nodes : List Node} (h : ArenaWF nodes) (fuel i : Nat)
    (hi : nodes.length - i ≤ fuel) : preorderFuel nodes fuel i = preorder nodes i := by
  unfold preorder
  rcases Nat.le_total fuel nodes.length with hle | hle
  · obtain ⟨d, hd⟩ := Nat.exists_eq_add_of_le hle
    rw [hd, preorderFuel_add h fuel i hi d]
  · obtain ⟨d, hd⟩ := Nat.exists_eq_add_of_le hle
    rw [hd, preorderFuel_add h nodes.length i (Nat.sub_le _ _) d]

/-- The preorder of a node is its id followed by the preorders of its children. -/
theorem preorder_unfold {nodes : List Node} (h : ArenaWF nodes) {i : Nat} {nd : Node}
    (hnd : nodes[i]? = some nd) :
    preorder nodes i = nd.id :: (nd.children.map (preorder nodes)).flatten := by
  have hi : i < nodes.length := by
    rcases List.getElem?_eq_some.1 hnd with ⟨hlt, _⟩
    exact hlt
  obtain ⟨f, hf⟩ : ∃ f, nodes.length = f + 1 := ⟨nodes.length - 1, by omega⟩
  have hstep : preorder nodes i
      = nd.id :: (nd.children.map (preorderFuel nodes f)).flatten := by
    unfold preorder
    rw [hf, preorderFuel, hnd]
  rw [hstep]
  congr 2
  apply List.map_congr_left
  intro c hc
  have hgt : i < c := h.child_gt hnd hc
  exact preorderFuel_eq_preorder h f c (by omega)

/-! ## The traversal -/

theorem UpClosed.of_flags {t t1 : Tree} (hn : t1.nodeData = t.nodeData)
    (hf : ∀ p, (t1.mem p).dirty = (t.mem p).dirty) (h : UpClosed t) : UpClosed t1 := by
  intro a m ka km ham hca hcm hd
  rw [hn] at ham hca hcm
  rw [hf] at hd ⊢
  exact h a m ka km ham hca hcm hd

theorem VisitPost.upClosed {t t1 : Tree} {cs : List Nat} {top : CachePtr}
    (hna : NoAlias t.nodeData) (hp : VisitPost t t1 cs top) (hu : UpClosed t) : UpClosed t1 := by
  intro a m ka km ham hca hcm hd
  rw [hp.nodeData_eq] at ham hca hcm
  have hkm : (t.mem (CachePtr.user km)).dirty = true := by
    by_cases htop : CachePtr.user km = top
    · subst htop; rw [← hp.top_dirty]; exact hd
    · rcases hp.frame _ htop with heq | ⟨k, m1, c, _, _, _, _, hcl, _⟩
      · rw [← heq]; exact hd
      · rw [hcl] at hd; exact absurd hd (by simp)
  have hka : (t.mem (CachePtr.user ka)).dirty = true := hu a m ka km ham hca hcm hkm
  by_cases htop : CachePtr.user ka = top
  · subst htop; rw [hp.top_dirty]; exact hka
  · rcases hp.frame _ htop with heq | ⟨k, m1, c, hk, hc, hcm1, hat, _, _⟩
    · rw [heq]; exact hka
    · cases hk
      have hma : m1 = a := hna m1 a ka hat hca
      subst hma
      have := hp.clean hu c m km hc (AncOrSelf.trans hcm1 ham) hcm
      rw [this] at hd
      exact absurd hd (by simp)

theorem VisitPost.travInv {t t1 : Tree} {cs : List Nat} {top : CachePtr} {rest : List CachePtr}
    {b : Nat} (hq : t.cacheQueue = top :: rest) (hinv : TravInv t b) (hb : ∀ c ∈ cs, b ≤ c)
    (hp : VisitPost t t1 cs top) : TravInv t1 b := by
  have hstack : ∀ k, CachePtr.user k ∈ t.cacheQueue →
      (t1.mem (CachePtr.user k)).dirty = true := by
    intro k hk
    by_cases htop : CachePtr.user k = top
    · subst htop; rw [hp.top_dirty]; exact hinv.stack_dirty k hk
    · rcases hp.frame _ htop with heq | ⟨k1, m, c, hk1, hc, hcm, hat, _, _⟩
      · rw [heq]; exact hinv.stack_dirty k hk
      · cases hk1
        have h1 : m < b := hinv.stack_above k m hk hat
        have h2 : c ≤ m := AncOrSelf.le hinv.arena hcm
        have h3 : b ≤ c := hb c hc
        omega
  refine ⟨?_, ?_, ?_, ?_, ?_⟩
  · rw [hp.nodeData_eq]; exact hinv.arena
  · rw [hp.nodeData_eq]; exact hinv.noalias
  · intro j k hj hcl
    rw [hp.nodeData_eq] at hj ⊢
    by_cases htop : CachePtr.user k = top
    · have hk : CachePtr.user k ∈ t.cacheQueue := by rw [hq, htop]; exact List.mem_cons_self _ _
      rw [hstack k hk] at hcl
      exact absurd hcl (by simp)
    · rcases hp.frame _ htop with heq | ⟨k1, m, c, hk1, _, _, hat, _, hdata⟩
      · rw [heq] at hcl ⊢
        exact hinv.valid j k hj hcl
      · cases hk1
        have hmj : m = j := hinv.noalias m j k hat hj
        subst hmj
        exact hdata
  · intro k hk
    rw [hp.queue_eq] at hk
    exact hstack k hk
  · intro k j hk hj
    rw [hp.queue_eq] at hk
    rw [hp.nodeData_eq] at hj
    exact hinv.stack_above k j hk hj

theorem VisitPost.nil (t : Tree) (top : CachePtr) : VisitPost t t [] top := by
  refine ⟨rfl, rfl, rfl, rfl, by simp, fun p _ => Or.inl rfl, ?_⟩
  intro _ c m k hc
  simp at hc

theorem VisitPost.cons {t t1 t2 : Tree} {c : Nat} {cs : List Nat} {top : CachePtr}
    (hna : NoAlias t.nodeData) (h1 : VisitPost t t1 [c] top) (h2 : VisitPost t1 t2 cs top) :
    VisitPost t t2 (c :: cs) top := by
  have hn := h1.nodeData_eq
  refine ⟨?_, ?_, ?_, ?_, ?_, ?_, ?_⟩
  · rw [h2.nodeData_eq, hn]
  · rw [h2.root_eq, h1.root_eq]
  · rw [h2.queue_eq, h1.queue_eq]
  · rw [h2.top_dirty, h1.top_dirty]
  · rw [h2.top_data, h1.top_data, hn]
    simp
  · intro p hp
    rcases h2.frame p hp with heq2 | ⟨k, m, c1, hk, hc1, hcm, hat, hcl, hdata⟩
    · rcases h1.frame p hp with heq1 | ⟨k, m, c1, hk, hc1, hcm, hat, hcl, hdata⟩
      · exact Or.inl (heq2.trans heq1)
      · refine Or.inr ⟨k, m, c1, hk, ?_, hcm, hat, ?_, ?_⟩
        · simp at hc1; simp [hc1]
        · rw [heq2]; exact hcl
        · rw [heq2]; exact hdata
    · rw [hn] at hcm hat hdata
      exact Or.inr ⟨k, m, c1, hk, List.mem_cons_of_mem _ hc1, hcm, hat, hcl, hdata⟩
  · intro hu c1 m k hc1 hcm hat
    rcases List.mem_cons.1 hc1 with hc | hc
    · subst hc
      have hcl1 := h1.clean hu c1 m k (List.mem_cons_self _ _) hcm hat
      by_cases htop : CachePtr.user k = top
      · subst htop; rw [h2.top_dirty]; exact hcl1
      · rcases h2.frame _ htop with heq | ⟨_, _, _, _, _, _, _, hcl, _⟩
        · rw [heq]; exact hcl1
        · exact hcl
    · have hu1 : UpClosed t1 := h1.upClosed hna hu
      rw [← hn] at hcm hat
      exact h2.clean hu1 c1 m k hc hcm hat

/-- The loop over a child list, given what one visit does. -/
theorem forEach_spec (body : Tree → Nat → Option Tree) (top : CachePtr) (rest : List CachePtr)
    (b : Nat) :
    ∀ (cs : List Nat) (t : Tree), t.cacheQueue = top :: rest → TravInv t b →
      (∀ c ∈ cs, b ≤ c) →
      (∀ c ∈ cs, ∀ t0 : Tree, t0.nodeData = t.nodeData → t0.cacheQueue = top :: rest →
        TravInv t0 b → ∃ t1, body t0 c = some t1 ∧ VisitPost t0 t1 [c] top) →
      ∃ t2, Tree.forEach body t cs = some t2 ∧ VisitPost t t2 cs top := by
  intro cs
  induction cs with
  | nil =>
    intro t _ _ _ _
    exact ⟨t, rfl, VisitPost.nil t top⟩
  | cons c cs ih =>
    intro t hq hinv hb hbody
    obtain ⟨t1, hrun1, hpost1⟩ := hbody c (List.mem_cons_self _ _) t rfl hq hinv
    have hq1 : t1.cacheQueue = top :: rest := by rw [hpost1.queue_eq, hq]
    have hinv1 : TravInv t1 b :=
      hpost1.travInv hq hinv (fun x hx => by
        simp at hx; subst hx; exact hb _ (List.mem_cons_self _ _))
    obtain ⟨t2, hrun2, hpost2⟩ := ih t1 hq1 hinv1
      (fun x hx => hb x (List.mem_cons_of_mem _ hx))
      (fun x hx t0 hn0 => hbody x (List.mem_cons_of_mem _ hx) t0
        (by rw [hn0, hpost1.nodeData_eq]))
    refine ⟨t2, ?_, VisitPost.cons hinv.noalias hpost1 hpost2⟩
    simp [Tree.forEach, hrun1, hrun2]

theorem submitToBack_eq {t : Tree} {top : CachePtr} {rest : List CachePtr}
    (hq : t.cacheQueue = top :: rest) (id : Int) :
    t.submitToBack id
      = some { t with mem := Function.update t.mem top ((t.mem top).submitNode id) } := by
  unfold Tree.submitToBack
  rw [hq]

theorem submitCache_eq {t : Tree} {top : CachePtr} {rest : List CachePtr}
    (hq : t.cacheQueue = top :: rest) (c : CachePtr) :
    t.submitCache c
      = some { t with mem := Function.update t.mem top ((t.mem top).submitList (t.mem c)) } := by
  unfold Tree.submitCache
  rw [hq]

theorem endCaching_eq {t : Tree} {top : CachePtr} {rest : List CachePtr}
    (hq : t.cacheQueue = top :: rest) (c : CachePtr) :
    t.endCaching c
      = some { t with
          mem := Function.update t.mem c (t.mem c).finishCaching
          cacheQueue := rest } := by
  unfold Tree.endCaching
  rw [hq]

/-- Appending to the active cache keeps the traversal invariant. -/
theorem TravInv.update_top {t : Tree} {b : Nat} {top : CachePtr} {rest : List CachePtr}
    (hq : t.cacheQueue = top :: rest) (hinv : TravInv t b) (c : Cache)
    (hc : c.dirty = (t.mem top).dirty) {b1 : Nat} (hb : b ≤ b1) :
    TravInv { t with mem := Function.update t.mem top c } b1 := by
  have hflag : ∀ p, (Function.update t.mem top c p).dirty = (t.mem p).dirty := by
    intro p
    by_cases hp : p = top
    · subst hp; simp [hc]
    · simp [Function.update_noteq hp]
  refine ⟨hinv.arena, hinv.noalias, ?_, ?_, ?_⟩
  · intro j k hj hcl
    have hcl1 : (t.mem (CachePtr.user k)).dirty = false := by rw [← hflag]; exact hcl
    by_cases hp : CachePtr.user k = top
    · have hk : CachePtr.user k ∈ t.cacheQueue := by rw [hq, hp]; exact List.mem_cons_self _ _
      rw [hinv.stack_dirty k hk] at hcl1
      exact absurd hcl1 (by simp)
    · show (Function.update t.mem top c (CachePtr.user k)).cacheData = _
      rw [Function.update_noteq hp]
      exact hinv.valid j k hj hcl1
  · intro k hk
    show (Function.update t.mem top c (CachePtr.user k)).dirty = true
    rw [hflag]
    exact hinv.stack_dirty k hk
  · intro k j hk hj
    exact Nat.lt_of_lt_of_le (hinv.stack_above k j hk hj) hb

/-- A node without a cache: its id and then its children go to the active cache. -/
theorem visit_plain {t : Tree} {i b : Nat} {top : CachePtr} {rest : List CachePtr} {nd : Node}
    (body : Tree → Nat → Option Tree)
    (hq : t.cacheQueue = top :: rest) (hinv : TravInv t b) (hb : b ≤ i)
    (hnd : t.nodeData[i]? = some nd) (hsc : nd.subtreeCache = none)
    (hkids : ∀ c ∈ nd.children, ∀ t0 : Tree, t0.nodeData = t.nodeData →
      ∀ top0 rest0, t0.cacheQueue = top0 :: rest0 → TravInv t0 (i + 1) →
      ∃ t1, body t0 c = some t1 ∧ VisitPost t0 t1 [c] top0) :
    ∃ t2, (match t.submitToBack nd.id with
      | none => none
      | some t1 => Tree.forEach body t1 nd.children) = some t2 ∧ VisitPost t t2 [i] top := by
  rw [submitToBack_eq hq]
  simp only
  obtain ⟨t1, ht1⟩ : ∃ t1 : Tree,
      t1 = { t with mem := Function.update t.mem top ((t.mem top).submitNode nd.id) } :=
    ⟨_, rfl⟩
  rw [← ht1]
  have hn1 : t1.nodeData = t.nodeData := by rw [ht1]
  have hq1 : t1.cacheQueue = top :: rest := by rw [ht1]; exact hq
  have hm1 : t1.mem = Function.update t.mem top ((t.mem top).submitNode nd.id) := by rw [ht1]
  have hr1 : t1.root = t.root := by rw [ht1]
  have hflag : ∀ p, (t1.mem p).dirty = (t.mem p).dirty := by
    intro p
    rw [hm1]
    by_cases hp : p = top
    · subst hp; simp [Cache.submitNode]
    · simp [Function.update_noteq hp]
  have hinv1 : TravInv t1 (i + 1) := by
    rw [ht1]
    exact hinv.update_top hq ((t.mem top).submitNode nd.id) rfl (Nat.le_succ_of_le hb)
  obtain ⟨t2, hrun, hpost⟩ := forEach_spec body top rest (i + 1) nd.children t1 hq1 hinv1
    (fun c hc => hinv.arena.child_gt hnd hc)
    (fun c hc t0 hn0 hq0 hinv0 => hkids c hc t0 (hn0.trans hn1) top rest hq0 hinv0)
  refine ⟨t2, hrun, ?_⟩
  have hpre := preorder_unfold hinv.arena hnd
  refine ⟨hpost.nodeData_eq.trans hn1, hpost.root_eq.trans hr1, hpost.queue_eq.trans (hq1.trans hq.symm),
    ?_, ?_, ?_, ?_⟩
  · rw [hpost.top_dirty, hflag]
  · rw [hpost.top_data, hn1, hm1]
    simp [Cache.submitNode, hpre]
  · intro p hp
    rcases hpost.frame p hp with heq | ⟨k, m, c, hk, hc, hcm, hat, hcl, hdata⟩
    · left
      rw [heq, hm1]
      exact Function.update_noteq hp _ _
    · right
      rw [hn1] at hcm hat hdata
      exact ⟨k, m, i, hk, List.mem_cons_self _ _, AncOrSelf.of_child hinv.arena hnd hc hcm,
        hat, hcl, hdata⟩
  · intro hu c m k hc hcm hat
    simp at hc
    subst hc
    by_cases hmc : m = c
    · subst hmc
      rw [cacheAt_of_getElem hnd, hsc] at hat
      exact absurd hat (by simp)
    · obtain ⟨c1, hc1, hc1m⟩ := AncOrSelf.descend hinv.arena hnd hcm hmc
      rw [← hn1] at hc1m hat
      exact hpost.clean (UpClosed.of_flags hn1 hflag hu) c1 m k hc1 hc1m hat

/-- A node with a clean cache: the cache is copied to the active cache. -/
theorem visit_clean {t : Tree} {i b : Nat} {top : CachePtr} {rest : List CachePtr} {nd : Node}
    {k : Nat} (hq : t.cacheQueue = top :: rest) (hinv : TravInv t b)
    (hnd : t.nodeData[i]? = some nd) (hsc : nd.subtreeCache = some k)
    (hclean : (t.mem (CachePtr.user k)).dirty = false) :
    ∃ t2, t.submitCache (CachePtr.user k) = some t2 ∧ VisitPost t t2 [i] top := by
  rw [submitCache_eq hq]
  refine ⟨_, rfl, ?_⟩
  have hat : cacheAt t.nodeData i = some k := by rw [cacheAt_of_getElem hnd, hsc]
  have hflag : ∀ p, (Function.update t.mem top
      ((t.mem top).submitList (t.mem (CachePtr.user k))) p).dirty = (t.mem p).dirty := by
    intro p
    by_cases hp : p = top
    · subst hp; simp [Cache.submitList]
    · simp [Function.update_noteq hp]
  refine ⟨rfl, rfl, rfl, ?_, ?_, ?_, ?_⟩
  · simp [Cache.submitList]
  · simp [Cache.submitList, Cache.getCachedData, hinv.valid i k hat hclean]
  · intro p hp
    left
    exact Function.update_noteq hp _ _
  · intro hu c m k1 hc hcm hat1
    simp at hc
    subst hc
    show (Function.update t.mem top _ (CachePtr.user k1)).dirty = false
    rw [hflag]
    by_contra hd
    have hd1 : (t.mem (CachePtr.user k1)).dirty = true := by simpa using hd
    have := hu c m k k1 hcm hat hat1 hd1
    rw [hclean] at this
    exact absurd this (by simp)

/-- A node with a dirty cache: the cache is rebuilt from the node and its children,
cleaned, and copied to the cache that was active before. -/
theorem visit_dirty {t : Tree} {i b : Nat} {top : CachePtr} {rest : List CachePtr} {nd : Node}
    {k : Nat} (body : Tree → Nat → Option Tree)
    (hq : t.cacheQueue = top :: rest) (hinv : TravInv t b) (hb : b ≤ i)
    (hnd : t.nodeData[i]? = some nd) (hsc : nd.subtreeCache = some k)
    (hdirty : (t.mem (CachePtr.user k)).dirty = true)
    (hkids : ∀ c ∈ nd.children, ∀ t0 : Tree, t0.nodeData = t.nodeData →
      ∀ top0 rest0, t0.cacheQueue = top0 :: rest0 → TravInv t0 (i + 1) →
      ∃ t1, body t0 c = some t1 ∧ VisitPost t0 t1 [c] top0) :
    ∃ t4, (match (t.beginCaching (CachePtr.user k)).submitToBack nd.id with
      | none => none
      | some t1 =>
        match Tree.forEach body t1 nd.children with
        | none => none
        | some t2 =>
          match t2.endCaching (CachePtr.user k) with
          | none => none
          | some t3 => t3.submitCache (CachePtr.user k)) = some t4 ∧
      VisitPost t t4 [i] top := by
  have hat : cacheAt t.nodeData i = some k := by rw [cacheAt_of_getElem hnd, hsc]
  have hpre := preorder_unfold hinv.arena hnd
  have hne : top ≠ CachePtr.user k := by
    intro h
    have hk : CachePtr.user k ∈ t.cacheQueue := by rw [hq, h]; exact List.mem_cons_self _ _
    have := hinv.stack_above k i hk hat
    omega
  -- the state after `beginCaching` and the submission of the node's id
  obtain ⟨t1, ht1⟩ : ∃ t1 : Tree, t1 =
      { t.beginCaching (CachePtr.user k) with
        mem := Function.update (t.beginCaching (CachePtr.user k)).mem (CachePtr.user k)
          (((t.beginCaching (CachePtr.user k)).mem (CachePtr.user k)).submitNode nd.id) } :=
    ⟨_, rfl⟩
  have hstep1 : (t.beginCaching (CachePtr.user k)).submitToBack nd.id = some t1 := by
    rw [ht1]
    exact @submitToBack_eq (t.beginCaching (CachePtr.user k)) (CachePtr.user k) t.cacheQueue
      rfl nd.id
  have hn1 : t1.nodeData = t.nodeData := by rw [ht1]; rfl
  have hr1 : t1.root = t.root := by rw [ht1]; rfl
  have hq1 : t1.cacheQueue = CachePtr.user k :: top :: rest := by
    rw [ht1]; show CachePtr.user k :: t.cacheQueue = _; rw [hq]
  have hk1d : (t1.mem (CachePtr.user k)).dirty = true := by
    rw [ht1]; simp [Tree.beginCaching, Cache.submitNode, Cache.reset, hdirty]
  have hk1 : (t1.mem (CachePtr.user k)).cacheData = [nd.id] := by
    rw [ht1]; simp [Tree.beginCaching, Cache.submitNode, Cache.reset]
  have hother1 : ∀ p, p ≠ CachePtr.user k → t1.mem p = t.mem p := by
    intro p hp
    rw [ht1]; simp [Tree.beginCaching, Function.update_noteq hp]
  have hflag1 : ∀ p, (t1.mem p).dirty = (t.mem p).dirty := by
    intro p
    by_cases hp : p = CachePtr.user k
    · subst hp; rw [hk1d, hdirty]
    · rw [hother1 p hp]
  have hinv1 : TravInv t1 (i + 1) := by
    refine ⟨?_, ?_, ?_, ?_, ?_⟩
    · rw [hn1]; exact hinv.arena
    · rw [hn1]; exact hinv.noalias
    · intro j k1 hj hcl
      rw [hn1] at hj ⊢
      by_cases hk : k1 = k
      · subst hk; rw [hk1d] at hcl; exact absurd hcl (by simp)
      · have hp : CachePtr.user k1 ≠ CachePtr.user k := by simpa using hk
        rw [hother1 _ hp] at hcl ⊢
        exact hinv.valid j k1 hj hcl
    · intro k1 hk1
      rw [hflag1]
      rw [hq1] at hk1
      rcases List.mem_cons.1 hk1 with h | h
      · rw [h]; exact hdirty
      · exact hinv.stack_dirty k1 (by rw [hq]; exact h)
    · intro k1 j hk1 hj
      rw [hn1] at hj
      rw [hq1] at hk1
      rcases List.mem_cons.1 hk1 with h | h
      · have hkk : k1 = k := CachePtr.user.inj h
        rw [hkk] at hj
        have := hinv.noalias j i k hj hat
        omega
      · have := hinv.stack_above k1 j (by rw [hq]; exact h) hj
        omega
  obtain ⟨t2, hrun, hpost⟩ := forEach_spec body (CachePtr.user k) (top :: rest) (i + 1)
    nd.children t1 hq1 hinv1 (fun c hc => hinv.arena.child_gt hnd hc)
    (fun c hc t0 hn0 hq0 hinv0 =>
      hkids c hc t0 (hn0.trans hn1) (CachePtr.user k) (top :: rest) hq0 hinv0)
  have hn2 : t2.nodeData = t.nodeData := hpost.nodeData_eq.trans hn1
  have hq2 : t2.cacheQueue = CachePtr.user k :: top :: rest := hpost.queue_eq.trans hq1
  have htop2 : t2.mem top = t.mem top := by
    rcases hpost.frame top hne with heq | ⟨k1, m, c, hk1, hc, hcm, hat1, _, _⟩
    · rw [heq, hother1 top hne]
    · exfalso
      rw [hn1] at hcm hat1
      have h1 : i < c := hinv.arena.child_gt hnd hc
      have h2 : c ≤ m := AncOrSelf.le hinv.arena hcm
      have h3 : m < b := hinv.stack_above k1 m (by rw [hq, hk1]; exact List.mem_cons_self _ _) hat1
      omega
  have hk2 : (t2.mem (CachePtr.user k)).cacheData = preorder t.nodeData i := by
    rw [hpost.top_data, hk1, hn1, hpre]
    simp
  -- the states after `endCaching` and `submitCache`
  obtain ⟨t3, ht3⟩ : ∃ t3 : Tree, t3 =
      { t2 with
        mem := Function.update t2.mem (CachePtr.user k) (t2.mem (CachePtr.user k)).finishCaching
        cacheQueue := top :: rest } := ⟨_, rfl⟩
  have hstep3 : t2.endCaching (CachePtr.user k) = some t3 := by
    rw [ht3]; exact endCaching_eq hq2 _
  have hq3 : t3.cacheQueue = top :: rest := by rw [ht3]
  have hk3 : t3.mem (CachePtr.user k) = (t2.mem (CachePtr.user k)).finishCaching := by
    rw [ht3]; simp
  have hother3 : ∀ p, p ≠ CachePtr.user k → t3.mem p = t2.mem p := by
    intro p hp
    rw [ht3]; simp [Function.update_noteq hp]
  obtain ⟨t4, ht4⟩ : ∃ t4 : Tree, t4 =
      { t3 with
        mem := Function.update t3.mem top ((t3.mem top).submitList (t3.mem (CachePtr.user k))) } :=
    ⟨_, rfl⟩
  have hstep4 : t3.submitCache (CachePtr.user k) = some t4 := by
    rw [ht4]; exact submitCache_eq hq3 _
  have htop4 : t4.mem top = (t.mem top).submitList (t2.mem (CachePtr.user k)).finishCaching := by
    rw [ht4]; simp [hk3, hother3 top hne, htop2]
  have hother4 : ∀ p, p ≠ top → t4.mem p = t3.mem p := by
    intro p hp
    rw [ht4]; simp [Function.update_noteq hp]
  refine ⟨t4, ?_, ?_⟩
  · rw [hstep1]; simp only
    rw [hrun]; simp only
    rw [hstep3]; simp only
    rw [hstep4]
  have hkfin : (t4.mem (CachePtr.user k)).dirty = false := by
    rw [hother4 _ (Ne.symm hne), hk3]; rfl
  refine ⟨?_, ?_, ?_, ?_, ?_, ?_, ?_⟩
  · rw [ht4, ht3]; exact hn2
  · rw [ht4, ht3]; exact hpost.root_eq.trans hr1
  · rw [ht4, ht3]; exact hq.symm
  · rw [htop4]; rfl
  · rw [htop4]
    simp [Cache.submitList, Cache.finishCaching, Cache.getCachedData, hk2]
  · intro p hp
    by_cases hpk : p = CachePtr.user k
    · right
      refine ⟨k, i, i, hpk, List.mem_cons_self _ _, AncOrSelf.refl i, hat, ?_, ?_⟩
      · rw [hpk]; exact hkfin
      · rw [hpk, hother4 _ (Ne.symm hne), hk3]
        exact hk2
    · rw [hother4 p hp, hother3 p hpk]
      rcases hpost.frame p hpk with heq | ⟨k1, m, c, hk1, hc, hcm, hat1, hcl, hdata⟩
      · left
        rw [heq, hother1 p hpk]
      · right
        rw [hn1] at hcm hat1 hdata
        exact ⟨k1, m, i, hk1, List.mem_cons_self _ _,
          AncOrSelf.of_child hinv.arena hnd hc hcm, hat1, hcl, hdata⟩
  · intro hu c m k1 hc hcm hat1
    simp at hc
    subst hc
    by_cases hmc : m = c
    · subst hmc
      rw [hat] at hat1
      cases hat1
      exact hkfin
    · obtain ⟨c1, hc1, hc1m⟩ := AncOrSelf.descend hinv.arena hnd hcm hmc
      have hcl2 : (t2.mem (CachePtr.user k1)).dirty = false := by
        rw [← hn1] at hc1m hat1
        exact hpost.clean (UpClosed.of_flags hn1 hflag1 hu) c1 m k1 hc1 hc1m hat1
      have hk1top : CachePtr.user k1 ≠ top := by
        intro h
        have h1 : c ≤ m := AncOrSelf.le hinv.arena hcm
        have h3 : m < b :=
          hinv.stack_above k1 m (by rw [hq, h]; exact List.mem_cons_self _ _) hat1
        omega
      rw [hother4 _ hk1top]
      by_cases hk : k1 = k
      · subst hk; rw [hk3]; rfl
      · have hp : CachePtr.user k1 ≠ CachePtr.user k := by simpa using hk
        rw [hother3 _ hp]; exact hcl2

/-- The method `Tree::submitNode` on a well-formed arena: with enough fuel it returns, it
appends the preorder of the node to the active cache, and every other cache it changes
is attached inside the subtree and ends clean with the preorder of its node. -/
theorem submitNode_spec :
    ∀ (fuel : Nat) (t : Tree) (i b : Nat) (top : CachePtr) (rest : List CachePtr),
      t.cacheQueue = top :: rest → TravInv t b → b ≤ i → i < t.nodeData.length →
      t.nodeData.length - i ≤ fuel →
      ∃ t1, t.submitNode fuel i = some t1 ∧ VisitPost t t1 [i] top := by
  intro fuel
  induction fuel with
  | zero =>
    intro t i b top rest _ _ _ hi hf
    omega
  | succ f ih =>
    intro t i b top rest hq hinv hb hi hf
    obtain ⟨nd, hnd⟩ : ∃ nd, t.nodeData[i]? = some nd :=
      ⟨t.nodeData[i], List.getElem?_eq_getElem hi⟩
    have hkids : ∀ c ∈ nd.children, ∀ t0 : Tree, t0.nodeData = t.nodeData →
        ∀ top0 rest0, t0.cacheQueue = top0 :: rest0 → TravInv t0 (i + 1) →
        ∃ t1, Tree.submitNode f t0 c = some t1 ∧ VisitPost t0 t1 [c] top0 := by
      intro c hc t0 hn0 top0 rest0 hq0 hinv0
      have hgt := hinv.arena.child_gt hnd hc
      have hlt := hinv.arena.child_lt i nd c hnd hc
      exact ih t0 c (i + 1) top0 rest0 hq0 hinv0 hgt (by rw [hn0]; exact hlt)
        (by rw [hn0]; omega)
    rw [Tree.submitNode, hnd]
    simp only
    cases hsc : nd.subtreeCache with
    | none =>
      simp only
      exact visit_plain (Tree.submitNode f) hq hinv hb hnd hsc hkids
    | some k =>
      simp only
      cases hd : (t.mem (CachePtr.user k)).dirty with
      | true =>
        simp only [Cache.getDirty, hd, if_true]
        exact visit_dirty (Tree.submitNode f) hq hinv hb hnd hsc hd hkids
      | false =>
        simp only [Cache.getDirty, hd]
        exact visit_clean hq hinv hnd hsc hd

/-- What `submitOrderedTreeNodes` does from a well-formed state in which no cache is shared
and every clean attached cache is valid. -/
theorem submitOrdered_spec {t : Tree} (hwf : t.WF) (hna : NoAlias t.nodeData)
    (hv : CachesValid t) :
    ∃ t1, t.submitOrderedTreeNodes = some t1 ∧ t1.nodeData = t.nodeData ∧ t1.root = t.root ∧
      t1.cacheQueue = [] ∧
      (t1.mem CachePtr.final).dirty = false ∧
      (t1.mem CachePtr.final).cacheData = preorder t.nodeData t.root ∧
      (∀ k, t1.mem (CachePtr.user k) = t.mem (CachePtr.user k) ∨
        ∃ m, cacheAt t.nodeData m = some k ∧ (t1.mem (CachePtr.user k)).dirty = false ∧
          (t1.mem (CachePtr.user k)).cacheData = preorder t.nodeData m) ∧
      (UpClosed t → AllClean t1) := by
  obtain ⟨t0, ht0⟩ : ∃ t0 : Tree, t0 = t.beginCaching CachePtr.final := ⟨_, rfl⟩
  have hn0 : t0.nodeData = t.nodeData := by rw [ht0]; rfl
  have hr0 : t0.root = t.root := by rw [ht0]; rfl
  have hq0 : t0.cacheQueue = [CachePtr.final] := by
    rw [ht0]; show CachePtr.final :: t.cacheQueue = _; rw [hwf.queue_empty]
  have hf0 : (t0.mem CachePtr.final).cacheData = [] := by
    rw [ht0]; simp [Tree.beginCaching, Cache.reset]
  have hu0 : ∀ k, t0.mem (CachePtr.user k) = t.mem (CachePtr.user k) := by
    intro k
    rw [ht0]; simp [Tree.beginCaching]
  have hinv0 : TravInv t0 0 := by
    refine ⟨?_, ?_, ?_, ?_, ?_⟩
    · rw [hn0]; exact hwf.arena
    · rw [hn0]; exact hna
    · intro j k hj hcl
      rw [hn0] at hj ⊢
      rw [hu0] at hcl ⊢
      exact hv j k hj hcl
    · intro k hk
      rw [hq0] at hk
      simp at hk
    · intro k j hk
      rw [hq0] at hk
      simp at hk
  have hlen : 0 < t0.nodeData.length := by rw [hn0]; exact hwf.arena.nonempty
  obtain ⟨t1, hrun, hpost⟩ := submitNode_spec t0.nodeData.length t0 0 0 CachePtr.final []
    hq0 hinv0 (Nat.le_refl 0) hlen (Nat.sub_le _ _)
  have hq1 : t1.cacheQueue = [CachePtr.final] := hpost.queue_eq.trans hq0
  obtain ⟨t2, ht2⟩ : ∃ t2 : Tree, t2 =
      { t1 with
        mem := Function.update t1.mem CachePtr.final (t1.mem CachePtr.final).finishCaching
        cacheQueue := [] } := ⟨_, rfl⟩
  have hstep2 : t1.endCaching CachePtr.final = some t2 := by
    rw [ht2]; exact endCaching_eq hq1 _
  have hu2 : ∀ k, t2.mem (CachePtr.user k) = t1.mem (CachePtr.user k) := by
    intro k
    rw [ht2]; simp
  have hf2 : t2.mem CachePtr.final = (t1.mem CachePtr.final).finishCaching := by
    rw [ht2]; simp
  have hn2 : t2.nodeData = t.nodeData := by rw [ht2]; exact hpost.nodeData_eq.trans hn0
  refine ⟨t2, ?_, hn2, ?_, ?_, ?_, ?_, ?_, ?_⟩
  · unfold Tree.submitOrderedTreeNodes
    rw [← ht0, ← hn0, ← hr0, hr0.trans hwf.root_eq, hrun]
    exact hstep2
  · rw [ht2]; exact hpost.root_eq.trans hr0
  · rw [ht2]
  · rw [hf2]; rfl
  · rw [hf2, hwf.root_eq]
    show (t1.mem CachePtr.final).cacheData = _
    rw [hpost.top_data, hf0, hn0]
    simp
  · intro k
    rw [hu2]
    rcases hpost.frame (CachePtr.user k) (by simp) with heq | ⟨k1, m, c, hk1, _, _, hat, hcl, hd⟩
    · left; rw [heq, hu0]
    · right
      cases hk1
      rw [hn0] at hat hd
      exact ⟨m, hat, hcl, hd⟩
  · intro hu i k hat
    rw [hn2] at hat
    rw [hu2]
    have hu0' : UpClosed t0 := by
      refine UpClosed.of_flags hn0 ?_ hu
      intro p
      rw [ht0]
      by_cases hp : p = CachePtr.final
      · subst hp; simp [Tree.beginCaching, Cache.reset]
      · simp [Tree.beginCaching, Function.update_noteq hp]
    have hi : i < t.nodeData.length := cacheAt_lt_length hat
    have hanc := hwf.arena.root_anc i hi
    rw [← hn0] at hanc hat
    exact hpost.clean hu0' 0 i k (List.mem_cons_self _ _) hanc hat

/-! ## The parent walk of `Node::markDirty` -/

theorem ancOrSelf_iff {nodes : List Node} {a n : Nat} :
    AncOrSelf nodes a n ↔ a = n ∨ ∃ q, parentOf nodes n = some q ∧ AncOrSelf nodes a q := by
  constructor
  · intro h
    cases h with
    | refl => exact Or.inl rfl
    | step hp hq => exact Or.inr ⟨_, hp, hq⟩
  · rintro (h | ⟨q, hp, hq⟩)
    · subst h; exact AncOrSelf.refl _
    · exact AncOrSelf.step hp hq

/-- The ancestors of a node that only depend on the parent pointers below it. -/
theorem AncOrSelf.congr_of_lt {n1 n2 : List Node} {a m : Nat}
    (hlt : ∀ i p, parentOf n1 i = some p → p < i)
    (hpar : ∀ x, x ≤ m → parentOf n1 x = parentOf n2 x)
    (ham : AncOrSelf n1 a m) : AncOrSelf n2 a m := by
  induction ham with
  | refl => exact AncOrSelf.refl _
  | @step p m hp _ ih =>
    have hpm : p < m := hlt m p hp
    refine AncOrSelf.step ((hpar m (Nat.le_refl m)) ▸ hp) (ih ?_)
    intro x hx
    exact hpar x (Nat.le_trans hx (Nat.le_of_lt hpm))

theorem markDirtyLoop_none (nodes : List Node) (fuel : Nat) (mem : CachePtr → Cache) :
    Tree.markDirtyLoop nodes fuel mem none = some mem := by
  cases fuel <;> rfl

/-- With fuel above the index of the start node the walk ends; it keeps all cache data and
sets the dirty flag of exactly the caches attached to the start node and its ancestors. -/
theorem markDirtyLoop_spec (nodes : List Node)
    (hlt : ∀ i p, parentOf nodes i = some p → p < i) :
    ∀ (fuel : Nat) (mem : CachePtr → Cache) (n : Nat), n < nodes.length → n < fuel →
      ∃ m1, Tree.markDirtyLoop nodes fuel mem (some n) = some m1 ∧
        (∀ q, (m1 q).cacheData = (mem q).cacheData) ∧
        (∀ q, (m1 q).dirty = true ↔ ((mem q).dirty = true ∨
          ∃ a k, AncOrSelf nodes a n ∧ cacheAt nodes a = some k ∧ q = CachePtr.user k)) := by
  intro fuel
  induction fuel with
  | zero =>
    intro mem n _ hf
    omega
  | succ f ih =>
    intro mem n hn hf
    obtain ⟨nd, hnd⟩ : ∃ nd, nodes[n]? = some nd := ⟨nodes[n], List.getElem?_eq_getElem hn⟩
    have hpar : parentOf nodes n = nd.parent := parentOf_of_getElem hnd
    have hcache : cacheAt nodes n = nd.subtreeCache := cacheAt_of_getElem hnd
    -- the walk above the start node, from any memory
    have hrest : ∀ mem0 : CachePtr → Cache,
        ∃ m1, Tree.markDirtyLoop nodes f mem0 nd.parent = some m1 ∧
          (∀ q, (m1 q).cacheData = (mem0 q).cacheData) ∧
          (∀ q, (m1 q).dirty = true ↔ ((mem0 q).dirty = true ∨
            ∃ a k, (∃ p, nd.parent = some p ∧ AncOrSelf nodes a p) ∧
              cacheAt nodes a = some k ∧ q = CachePtr.user k)) := by
      intro mem0
      cases hp : nd.parent with
      | none =>
        refine ⟨mem0, markDirtyLoop_none nodes f mem0, fun _ => rfl, ?_⟩
        intro q
        constructor
        · exact Or.inl
        · rintro (h | ⟨a, k, ⟨p, hp1, _⟩, _, _⟩)
          · exact h
          · exact absurd hp1 (by simp)
      | some p =>
        have hpn : p < n := hlt n p (by rw [hpar, hp])
        obtain ⟨m1, hrun, hdata, hflag⟩ := ih mem0 p (Nat.lt_trans hpn hn) (by omega)
        refine ⟨m1, hrun, hdata, ?_⟩
        intro q
        rw [hflag q]
        constructor
        · rintro (h | ⟨a, k, ha, hk, hq⟩)
          · exact Or.inl h
          · exact Or.inr ⟨a, k, ⟨p, rfl, ha⟩, hk, hq⟩
        · rintro (h | ⟨a, k, ⟨p1, hp1, ha⟩, hk, hq⟩)
          · exact Or.inl h
          · cases hp1
            exact Or.inr ⟨a, k, ha, hk, hq⟩
    rw [Tree.markDirtyLoop, hnd]
    simp only
    cases hsc : nd.subtreeCache with
    | none =>
      simp only
      obtain ⟨m1, hrun, hdata, hflag⟩ := hrest mem
      refine ⟨m1, hrun, hdata, ?_⟩
      intro q
      rw [hflag q]
      constructor
      · rintro (h | ⟨a, k, ⟨p, hp1, ha⟩, hk, hq⟩)
        · exact Or.inl h
        · exact Or.inr ⟨a, k, AncOrSelf.step (hpar.trans hp1) ha, hk, hq⟩
      · rintro (h | ⟨a, k, ha, hk, hq⟩)
        · exact Or.inl h
        · rcases ancOrSelf_iff.1 ha with h | ⟨p, hp1, hap⟩
          · subst h
            rw [hcache, hsc] at hk
            exact absurd hk (by simp)
          · exact Or.inr ⟨a, k, ⟨p, hpar.symm.trans hp1, hap⟩, hk, hq⟩
    | some k0 =>
      simp only
      obtain ⟨m1, hrun, hdata, hflag⟩ := hrest
        (Function.update mem (CachePtr.user k0) (mem (CachePtr.user k0)).markDirty)
      refine ⟨m1, hrun, ?_, ?_⟩
      · intro q
        rw [hdata q]
        by_cases hq : q = CachePtr.user k0
        · subst hq; simp [Cache.markDirty]
        · simp [Function.update_noteq hq]
      · intro q
        rw [hflag q]
        have hupd : (Function.update mem (CachePtr.user k0)
            (mem (CachePtr.user k0)).markDirty q).dirty = true ↔
            ((mem q).dirty = true ∨ q = CachePtr.user k0) := by
          by_cases hq : q = CachePtr.user k0
          · subst hq; simp [Cache.markDirty]
          · simp [Function.update_noteq hq, hq]
        rw [hupd]
        constructor
        · rintro ((h | h) | ⟨a, k, ⟨p, hp1, ha⟩, hk, hq⟩)
          · exact Or.inl h
          · exact Or.inr ⟨n, k0, AncOrSelf.refl n, hcache.trans hsc, h⟩
          · exact Or.inr ⟨a, k, AncOrSelf.step (hpar.trans hp1) ha, hk, hq⟩
        · rintro (h | ⟨a, k, ha, hk, hq⟩)
          · exact Or.inl (Or.inl h)
          · rcases ancOrSelf_iff.1 ha with h | ⟨p, hp1, hap⟩
            · subst h
              rw [hcache, hsc] at hk
              cases hk
              exact Or.inl (Or.inr hq)
            · exact Or.inr ⟨a, k, ⟨p, hpar.symm.trans hp1, hap⟩, hk, hq⟩

/-- The method `Node::markDirty` on the node `c`: it returns, keeps all cache data and sets
the dirty flag of exactly the caches attached to strict ancestors of `c`. -/
theorem markDirty_spec (t : Tree) (hlt : ∀ i p, parentOf t.nodeData i = some p → p < i)
    (c : Nat) (hc : c < t.nodeData.length) :
    ∃ m1, t.markDirty c = some { t with mem := m1 } ∧
      (∀ q, (m1 q).cacheData = (t.mem q).cacheData) ∧
      (∀ q, (m1 q).dirty = true ↔ ((t.mem q).dirty = true ∨
        ∃ a k, Ancestor t.nodeData a c ∧ cacheAt t.nodeData a = some k ∧
          q = CachePtr.user k)) := by
  obtain ⟨nd, hnd⟩ : ∃ nd, t.nodeData[c]? = some nd :=
    ⟨t.nodeData[c], List.getElem?_eq_getElem hc⟩
  have hpar : parentOf t.nodeData c = nd.parent := parentOf_of_getElem hnd
  unfold Tree.markDirty
  rw [hnd]
  simp only
  cases hp : nd.parent with
  | none =>
    rw [markDirtyLoop_none]
    refine ⟨t.mem, rfl, fun _ => rfl, ?_⟩
    intro q
    constructor
    · exact Or.inl
    · rintro (h | ⟨a, k, ⟨p, hp1, _⟩, _, _⟩)
      · exact h
      · rw [hpar, hp] at hp1
        exact absurd hp1 (by simp)
  | some p =>
    have hpc : p < c := hlt c p (by rw [hpar, hp])
    obtain ⟨m1, hrun, hdata, hflag⟩ := markDirtyLoop_spec t.nodeData hlt t.nodeData.length
      t.mem p (Nat.lt_trans hpc hc) (Nat.lt_trans hpc hc)
    rw [hrun]
    refine ⟨m1, rfl, hdata, ?_⟩
    intro q
    rw [hflag q]
    constructor
    · rintro (h | ⟨a, k, ha, hk, hq⟩)
      · exact Or.inl h
      · exact Or.inr ⟨a, k, ⟨p, hpar.trans hp, ha⟩, hk, hq⟩
    · rintro (h | ⟨a, k, ⟨p1, hp1, ha⟩, hk, hq⟩)
      · exact Or.inl h
      · rw [hpar, hp] at hp1
        cases hp1
        exact Or.inr ⟨a, k, ha, hk, hq⟩

/-! ## The arena after an insertion -/

theorem set_last {α : Type} (l : List α) (a b : α) : (l ++ [a]).set l.length b = l ++ [b] := by
  induction l with
  | nil => rfl
  | cons x xs ih => simp [List.set, ih]

theorem growArena_length (nodes : List Node) (p : Nat) (ndp : Node) :
    (growArena nodes p ndp).length = nodes.length + 1 := by
  simp [growArena]

theorem growArena_getElem_parent {nodes : List Node} {p : Nat} {ndp : Node}
    (hp : nodes[p]? = some ndp) :
    (growArena nodes p ndp)[p]? = some { ndp with children := ndp.children ++ [nodes.length] } := by
  have hlt : p < nodes.length := (List.getElem?_eq_some.1 hp).1
  unfold growArena
  rw [List.getElem?_set_self]
  simp
  omega

theorem growArena_getElem_new {nodes : List Node} {p : Nat} {ndp : Node}
    (hp : nodes[p]? = some ndp) :
    (growArena nodes p ndp)[nodes.length]?
      = some ({ id := (nodes.length : Int), parent := some p, children := [],
                subtreeCache := none } : Node) := by
  have hlt : p < nodes.length := (List.getElem?_eq_some.1 hp).1
  unfold growArena
  rw [List.getElem?_set_ne (by omega)]
  simp

theorem growArena_getElem_other {nodes : List Node} {p : Nat} {ndp : Node} {j : Nat}
    (hjp : j ≠ p) (hjn : j ≠ nodes.length) :
    (growArena nodes p ndp)[j]? = nodes[j]? := by
  unfold growArena
  rw [List.getElem?_set_ne (Ne.symm hjp), List.getElem?_append]
  by_cases hj : j < nodes.length
  · simp [hj]
  · have h1 : nodes[j]? = none := List.getElem?_eq_none (by omega)
    have h2 : ¬ j - nodes.length = 0 := by omega
    simp [hj, h1]
    omega

theorem growArena_parentOf {nodes : List Node} {p : Nat} {ndp : Node}
    (hp : nodes[p]? = some ndp) (j : Nat) :
    parentOf (growArena nodes p ndp) j
      = if j = nodes.length then some p else parentOf nodes j := by
  have hlt : p < nodes.length := (List.getElem?_eq_some.1 hp).1
  by_cases hjn : j = nodes.length
  · subst hjn
    simp [parentOf, growArena_getElem_new hp]
  · by_cases hjp : j = p
    · subst hjp
      simp [parentOf, growArena_getElem_parent hp, hp, hjn]
    · simp [parentOf, growArena_getElem_other hjp hjn, hjn]

theorem growArena_cacheAt {nodes : List Node} {p : Nat} {ndp : Node}
    (hp : nodes[p]? = some ndp) (j : Nat) :
    cacheAt (growArena nodes p ndp) j = cacheAt nodes j := by
  have hlt : p < nodes.length := (List.getElem?_eq_some.1 hp).1
  by_cases hjn : j = nodes.length
  · subst hjn
    have h1 : nodes[nodes.length]? = none := List.getElem?_eq_none (Nat.le_refl _)
    simp [cacheAt, growArena_getElem_new hp, h1]
  · by_cases hjp : j = p
    · subst hjp
      simp [cacheAt, growArena_getElem_parent hp, hp]
    · simp [cacheAt, growArena_getElem_other hjp hjn]

theorem growArena_parentOf_lt {nodes : List Node} (h : ArenaWF nodes) {p : Nat} {ndp : Node}
    (hp : nodes[p]? = some ndp) :
    ∀ i q, parentOf (growArena nodes p ndp) i = some q → q < i := by
  have hlt : p < nodes.length := (List.getElem?_eq_some.1 hp).1
  intro i q hq
  rw [growArena_parentOf hp] at hq
  by_cases hi : i = nodes.length
  · rw [if_pos hi] at hq
    cases hq
    omega
  · rw [if_neg hi] at hq
    exact h.parentOf_lt hq

/-- Below the new node the ancestors are the ones of the old arena. -/
theorem growArena_ancOrSelf {nodes : List Node} (h : ArenaWF nodes) {p : Nat} {ndp : Node}
    (hp : nodes[p]? = some ndp) {a m : Nat} (hm : m < nodes.length) :
    AncOrSelf (growArena nodes p ndp) a m ↔ AncOrSelf nodes a m := by
  have hpar : ∀ x, x ≤ m → parentOf (growArena nodes p ndp) x = parentOf nodes x := by
    intro x hx
    rw [growArena_parentOf hp, if_neg (by omega)]
  constructor
  · exact AncOrSelf.congr_of_lt (growArena_parentOf_lt h hp) hpar
  · exact AncOrSelf.congr_of_lt (fun i q hq => h.parentOf_lt hq) (fun x hx => (hpar x hx).symm)

theorem growArena_wf {nodes : List Node} (h : ArenaWF nodes) {p : Nat} {ndp : Node}
    (hp : nodes[p]? = some ndp) : ArenaWF (growArena nodes p ndp) := by
  have hlt : p < nodes.length := (List.getElem?_eq_some.1 hp).1
  have hget : ∀ j nd, (growArena nodes p ndp)[j]? = some nd →
      (j = p ∧ nd = { ndp with children := ndp.children ++ [nodes.length] }) ∨
      (j = nodes.length ∧ nd = (⟨(nodes.length : Int), some p, [], none⟩ : Node)) ∨
      (j ≠ p ∧ j ≠ nodes.length ∧ nodes[j]? = some nd) := by
    intro j nd hj
    by_cases hjp : j = p
    · subst hjp
      rw [growArena_getElem_parent hp] at hj
      exact Or.inl ⟨rfl, (Option.some.inj hj).symm⟩
    · by_cases hjn : j = nodes.length
      · subst hjn
        rw [growArena_getElem_new hp] at hj
        exact Or.inr (Or.inl ⟨rfl, (Option.some.inj hj).symm⟩)
      · rw [growArena_getElem_other hjp hjn] at hj
        exact Or.inr (Or.inr ⟨hjp, hjn, hj⟩)
  refine ⟨?_, ?_, ?_, ?_, ?_, ?_, ?_⟩
  · rw [growArena_length]; omega
  · intro j nd hj
    rcases hget j nd hj with ⟨hj1, hnd⟩ | ⟨hj1, hnd⟩ | ⟨_, _, hnd⟩
    · subst hj1; subst hnd; exact h.id_eq j ndp hp
    · subst hj1; subst hnd; rfl
    · exact h.id_eq j nd hnd
  · rw [growArena_parentOf hp, if_neg (by have := h.nonempty; omega)]
    exact h.root_parent
  · intro i hi0 hi
    rw [growArena_length] at hi
    rw [growArena_parentOf hp]
    by_cases hin : i = nodes.length
    · rw [if_pos hin]
      exact ⟨p, rfl, by omega⟩
    · rw [if_neg hin]
      exact h.parent_lt i hi0 (by omega)
  · intro j nd c hj hc
    rw [growArena_length]
    rcases hget j nd hj with ⟨hj1, hnd⟩ | ⟨hj1, hnd⟩ | ⟨_, _, hnd⟩
    · subst hnd
      simp at hc
      rcases hc with hc | hc
      · have := h.child_lt p ndp c hp hc
        omega
      · omega
    · subst hnd
      simp at hc
    · have := h.child_lt j nd c hnd hc
      omega
  · intro j nd c hj hc
    rw [growArena_length] at hc
    rw [growArena_parentOf hp]
    by_cases hcn : c = nodes.length
    · rw [if_pos hcn]
      rcases hget j nd hj with ⟨hj1, hnd⟩ | ⟨hj1, hnd⟩ | ⟨hjp, _, hnd⟩
      · subst hnd; subst hj1
        simp [hcn]
      · subst hnd
        simp
        omega
      · have hnot : c ∉ nd.children := by
          intro hmem
          have := h.child_lt j nd c hnd hmem
          omega
        simp [hnot]
        exact fun hpj => hjp hpj.symm
    · rw [if_neg hcn]
      have hc1 : c < nodes.length := by omega
      rcases hget j nd hj with ⟨hj1, hnd⟩ | ⟨hj1, hnd⟩ | ⟨_, _, hnd⟩
      · subst hnd; subst hj1
        simp [hcn]
        exact h.child_iff j ndp c hp hc1
      · subst hnd
        simp
        intro hpar
        have := h.parentOf_lt hpar
        omega
      · exact h.child_iff j nd c hnd hc1
  · intro j nd hj
    rcases hget j nd hj with ⟨hj1, hnd⟩ | ⟨hj1, hnd⟩ | ⟨_, _, hnd⟩
    · subst hnd
      simp only
      rw [List.nodup_append]
      refine ⟨h.child_nodup p ndp hp, by simp, ?_⟩
      intro a ha hb
      simp at hb
      subst hb
      have := h.child_lt p ndp _ hp ha
      omega
    · subst hnd
      simp
    · exact h.child_nodup j nd hnd

/-- The preorder of a node that is neither the parent of the new node nor above it is
the one of the old arena. -/
theorem growArena_preorderFuel {nodes : List Node} (h : ArenaWF nodes) {p : Nat} {ndp : Node}
    (hp : nodes[p]? = some ndp) :
    ∀ fuel m, m < nodes.length → ¬ AncOrSelf nodes m p →
      preorderFuel (growArena nodes p ndp) fuel m = preorderFuel nodes fuel m := by
  intro fuel
  induction fuel with
  | zero => intro m _ _; rfl
  | succ f ih =>
    intro m hm hnot
    have hmp : m ≠ p := by
      intro hmp
      subst hmp
      exact hnot (AncOrSelf.refl _)
    rw [preorderFuel, preorderFuel, growArena_getElem_other hmp (by omega)]
    cases hnd : nodes[m]? with
    | none => rfl
    | some nd =>
      simp only
      congr 2
      apply List.map_congr_left
      intro c hc
      refine ih c (h.child_lt m nd c hnd hc) ?_
      intro hcp
      exact hnot (AncOrSelf.of_child h hnd hc hcp)

theorem growArena_preorder {nodes : List Node} (h : ArenaWF nodes) {p : Nat} {ndp : Node}
    (hp : nodes[p]? = some ndp) {m : Nat} (hm : m < nodes.length)
    (hnot : ¬ AncOrSelf nodes m p) :
    preorder (growArena nodes p ndp) m = preorder nodes m := by
  unfold preorder
  rw [growArena_length, growArena_preorderFuel h hp _ m hm hnot]
  exact preorderFuel_succ h nodes.length m (Nat.sub_le _ _)

/-! ## `insertTreeNode` -/

theorem clampId_toNat (t : Tree) (hn : 0 < t.nodeData.length) (parentId : Int) :
    ((t.clampId parentId).toNat : Int) = t.clampId parentId ∧
      (t.clampId parentId).toNat < t.nodeData.length := by
  unfold Tree.clampId
  omega

theorem append_one_parentOf (nodes : List Node) (x : Node) (j : Nat) :
    parentOf (nodes ++ [x]) j = if j = nodes.length then x.parent else parentOf nodes j := by
  unfold parentOf
  rw [List.getElem?_append]
  by_cases hj : j < nodes.length
  · simp [hj, Nat.ne_of_lt hj]
  · by_cases hjn : j = nodes.length
    · subst hjn; simp
    · have h1 : nodes[j]? = none := List.getElem?_eq_none (by omega)
      have h2 : ¬ j - nodes.length = 0 := by omega
      simp [hj, hjn, h1]
      cases hd : j - nodes.length with
      | zero => omega
      | succ d => simp

theorem append_one_cacheAt (nodes : List Node) (x : Node) (hx : x.subtreeCache = none)
    (j : Nat) : cacheAt (nodes ++ [x]) j = cacheAt nodes j := by
  unfold cacheAt
  rw [List.getElem?_append]
  by_cases hj : j < nodes.length
  · simp [hj]
  · have h1 : nodes[j]? = none := List.getElem?_eq_none (by omega)
    simp only [hj, if_false, h1]
    cases hd : j - nodes.length with
    | zero => simp [hx]
    | succ d => simp

/-- The method `Tree::insertTreeNode` in closed form: it returns, the arena grows by the
new node under the clamped parent `p`, no cache data changes, and the dirty flag is set
on exactly the caches attached to `p` and to the ancestors of `p`. -/
theorem insertTreeNode_eq (t : Tree) (h : ArenaWF t.nodeData) (parentId : Int) :
    ∃ (p : Nat) (ndp : Node) (m1 : CachePtr → Cache),
      (p : Int) = t.clampId parentId ∧ t.nodeData[p]? = some ndp ∧
      t.insertTreeNode parentId
        = some { t with nodeData := growArena t.nodeData p ndp, mem := m1 } ∧
      (∀ q, (m1 q).cacheData = (t.mem q).cacheData) ∧
      (∀ q, (m1 q).dirty = true ↔ ((t.mem q).dirty = true ∨
        ∃ a k, AncOrSelf t.nodeData a p ∧ cacheAt t.nodeData a = some k ∧
          q = CachePtr.user k)) := by
  obtain ⟨hpI, hp⟩ := clampId_toNat t h.nonempty parentId
  obtain ⟨p, hpdef⟩ : ∃ p, p = (t.clampId parentId).toNat := ⟨_, rfl⟩
  rw [← hpdef] at hpI hp
  obtain ⟨ndp, hndp⟩ : ∃ ndp, t.nodeData[p]? = some ndp :=
    ⟨t.nodeData[p], List.getElem?_eq_getElem hp⟩
  obtain ⟨x2, hx2⟩ : ∃ x2 : Node, x2 = ⟨(t.nodeData.length : Int), some p, [], none⟩ :=
    ⟨_, rfl⟩
  have hpar2 : ∀ j, parentOf (t.nodeData ++ [x2]) j
      = if j = t.nodeData.length then some p else parentOf t.nodeData j := by
    intro j
    rw [append_one_parentOf, hx2]
  have hlt2 : ∀ i q, parentOf (t.nodeData ++ [x2]) i = some q → q < i := by
    intro i q hq
    rw [hpar2] at hq
    by_cases hi : i = t.nodeData.length
    · rw [if_pos hi] at hq
      cases hq
      omega
    · rw [if_neg hi] at hq
      exact h.parentOf_lt hq
  obtain ⟨m1, hrun, hdata, hflag⟩ :=
    markDirty_spec { t with nodeData := t.nodeData ++ [x2] } hlt2 t.nodeData.length
      (by simp)
  refine ⟨p, ndp, m1, hpI, hndp, ?_, hdata, ?_⟩
  · have e1 : (t.nodeData ++ [Node.new])[t.nodeData.length]? = some Node.new :=
      List.getElem?_concat_length _ _
    have hid : ((t.nodeData.length + 1 : Nat) : Int) - 1 = (t.nodeData.length : Int) := by
      push_cast
      omega
    unfold Tree.insertTreeNode
    simp only [List.length_append, List.length_singleton, Nat.add_sub_cancel, e1]
    simp only [set_last, hid, Node.new, ← hpdef]
    rw [if_pos (by rw [List.length_append, List.length_singleton]; omega)]
    unfold Tree.setParent
    simp only [List.getElem?_concat_length, set_last, ← hx2]
    rw [hrun]
    simp only
    unfold Tree.onChildAdded
    simp only [List.getElem?_append_left hp, hndp]
    rw [growArena, ← hx2]
  · intro q
    rw [hflag q]
    have hanc : ∀ a, Ancestor (t.nodeData ++ [x2]) a t.nodeData.length
        ↔ AncOrSelf t.nodeData a p := by
      intro a
      have hpar : ∀ x, x ≤ p → parentOf (t.nodeData ++ [x2]) x = parentOf t.nodeData x := by
        intro x hx
        rw [hpar2, if_neg (by omega)]
      constructor
      · rintro ⟨p1, hp1, ha⟩
        rw [hpar2, if_pos rfl] at hp1
        cases hp1
        exact AncOrSelf.congr_of_lt hlt2 hpar ha
      · intro ha
        refine ⟨p, by rw [hpar2, if_pos rfl], ?_⟩
        exact AncOrSelf.congr_of_lt (fun i q hq => h.parentOf_lt hq)
          (fun x hx => (hpar x hx).symm) ha
    have hcache : ∀ a, cacheAt (t.nodeData ++ [x2]) a = cacheAt t.nodeData a :=
      append_one_cacheAt t.nodeData x2 (by rw [hx2])
    constructor
    · rintro (hq | ⟨a, k, ha, hk, hq⟩)
      · exact Or.inl hq
      · exact Or.inr ⟨a, k, (hanc a).1 ha, (hcache a) ▸ hk, hq⟩
    · rintro (hq | ⟨a, k, ha, hk, hq⟩)
      · exact Or.inl hq
      · exact Or.inr ⟨a, k, (hanc a).2 ha, (hcache a).symm ▸ hk, hq⟩

/-- The method `insertTreeNode` keeps the invariant of the reachable states. -/
theorem insertTreeNode_inv {t t1 : Tree} (hinv : t.Inv) (parentId : Int)
    (hrun : t.insertTreeNode parentId = some t1) : t1.Inv := by
  obtain ⟨p, ndp, m1, _, hndp, heq, hdata, hflag⟩ :=
    insertTreeNode_eq t hinv.wf.arena parentId
  rw [heq] at hrun
  have ht1 : t1 = { t with nodeData := growArena t.nodeData p ndp, mem := m1 } :=
    (Option.some.inj hrun).symm
  have hn1 : t1.nodeData = growArena t.nodeData p ndp := by rw [ht1]
  have hm1 : t1.mem = m1 := by rw [ht1]
  have harena := hinv.wf.arena
  refine ⟨⟨?_, ?_, ?_⟩, ?_, ?_, ?_⟩
  · rw [hn1]; exact growArena_wf harena hndp
  · rw [ht1]; exact hinv.wf.root_eq
  · rw [ht1]; exact hinv.wf.queue_empty
  · intro i j k hi hj
    rw [hn1, growArena_cacheAt hndp] at hi hj
    exact hinv.noalias i j k hi hj
  · intro i k hi hcl
    rw [hn1] at hi ⊢
    rw [growArena_cacheAt hndp] at hi
    rw [hm1] at hcl ⊢
    have hnot : ¬ ((t.mem (CachePtr.user k)).dirty = true ∨
        ∃ a k1, AncOrSelf t.nodeData a p ∧ cacheAt t.nodeData a = some k1 ∧
          CachePtr.user k = CachePtr.user k1) := by
      intro h
      rw [← hflag, hcl] at h
      exact absurd h (by simp)
    have hold : (t.mem (CachePtr.user k)).dirty = false := by
      cases hd : (t.mem (CachePtr.user k)).dirty with
      | false => rfl
      | true => exact absurd (Or.inl hd) hnot
    have hnanc : ¬ AncOrSelf t.nodeData i p := fun h => hnot (Or.inr ⟨i, k, h, hi, rfl⟩)
    rw [hdata, hinv.valid i k hi hold,
      growArena_preorder harena hndp (cacheAt_lt_length hi) hnanc]
  · intro a m ka km ham hca hcm hd
    rw [hn1] at ham hca hcm
    rw [growArena_cacheAt hndp] at hca hcm
    rw [growArena_ancOrSelf harena hndp (cacheAt_lt_length hcm)] at ham
    rw [hm1] at hd ⊢
    rw [hflag] at hd ⊢
    rcases hd with hd | ⟨a1, k1, ha1, hk1, hq⟩
    · exact Or.inl (hinv.upClosed a m ka km ham hca hcm hd)
    · have hkk : km = k1 := CachePtr.user.inj hq
      rw [← hkk] at hk1
      have hma : a1 = m := hinv.noalias a1 m km hk1 hcm
      rw [hma] at ha1
      exact Or.inr ⟨a, ka, AncOrSelf.trans ham ha1, hca, rfl⟩

/-! ## `attachCache` -/

theorem set_cache_getElem {nodes : List Node} {i : Nat} {nd : Node} (k : Nat)
    (hi : nodes[i]? = some nd) (j : Nat) :
    (nodes.set i { nd with subtreeCache := some k })[j]?
      = if j = i then some { nd with subtreeCache := some k } else nodes[j]? := by
  have hlt : i < nodes.length := (List.getElem?_eq_some.1 hi).1
  by_cases hj : j = i
  · subst hj
    rw [List.getElem?_set_self hlt, if_pos rfl]
  · rw [List.getElem?_set_ne (Ne.symm hj), if_neg hj]

theorem set_cache_parentOf {nodes : List Node} {i : Nat} {nd : Node} (k : Nat)
    (hi : nodes[i]? = some nd) (j : Nat) :
    parentOf (nodes.set i { nd with subtreeCache := some k }) j = parentOf nodes j := by
  unfold parentOf
  rw [set_cache_getElem k hi]
  by_cases hj : j = i
  · subst hj; simp [hi]
  · simp [hj]

theorem set_cache_cacheAt {nodes : List Node} {i : Nat} {nd : Node} (k : Nat)
    (hi : nodes[i]? = some nd) (j : Nat) :
    cacheAt (nodes.set i { nd with subtreeCache := some k }) j
      = if j = i then some k else cacheAt nodes j := by
  unfold cacheAt
  rw [set_cache_getElem k hi]
  by_cases hj : j = i
  · subst hj; simp
  · simp [hj]

theorem set_cache_ancOrSelf {nodes : List Node} {i : Nat} {nd : Node} (k : Nat)
    (hi : nodes[i]? = some nd) {a m : Nat} :
    AncOrSelf (nodes.set i { nd with subtreeCache := some k }) a m ↔ AncOrSelf nodes a m := by
  constructor
  · intro h
    induction h with
    | refl => exact AncOrSelf.refl _
    | step hp _ ih => exact AncOrSelf.step ((set_cache_parentOf k hi _) ▸ hp) ih
  · intro h
    induction h with
    | refl => exact AncOrSelf.refl _
    | step hp _ ih => exact AncOrSelf.step ((set_cache_parentOf k hi _).symm ▸ hp) ih

theorem set_cache_wf {nodes : List Node} (h : ArenaWF nodes) {i : Nat} {nd : Node} (k : Nat)
    (hi : nodes[i]? = some nd) : ArenaWF (nodes.set i { nd with subtreeCache := some k }) := by
  have hget : ∀ (j : Nat) (nd1 : Node),
      (nodes.set i { nd with subtreeCache := some k })[j]? = some nd1 →
      ∃ nd0 : Node, nodes[j]? = some nd0 ∧ nd1.id = nd0.id ∧ nd1.children = nd0.children := by
    intro j nd1 hj
    rw [set_cache_getElem k hi] at hj
    by_cases hji : j = i
    · subst hji
      rw [if_pos rfl] at hj
      cases hj
      exact ⟨nd, hi, rfl, rfl⟩
    · rw [if_neg hji] at hj
      exact ⟨nd1, hj, rfl, rfl⟩
  refine ⟨?_, ?_, ?_, ?_, ?_, ?_, ?_⟩
  · rw [List.length_set]; exact h.nonempty
  · intro j nd1 hj
    obtain ⟨nd0, h0, hid, _⟩ := hget j nd1 hj
    rw [hid]; exact h.id_eq j nd0 h0
  · rw [set_cache_parentOf k hi]; exact h.root_parent
  · intro j hj0 hj
    rw [List.length_set] at hj
    rw [set_cache_parentOf k hi]
    exact h.parent_lt j hj0 hj
  · intro j nd1 c hj hc
    obtain ⟨nd0, h0, _, hch⟩ := hget j nd1 hj
    rw [List.length_set]
    rw [hch] at hc
    exact h.child_lt j nd0 c h0 hc
  · intro j nd1 c hj hc
    obtain ⟨nd0, h0, _, hch⟩ := hget j nd1 hj
    rw [List.length_set] at hc
    rw [set_cache_parentOf k hi, hch]
    exact h.child_iff j nd0 c h0 hc
  · intro j nd1 hj
    obtain ⟨nd0, h0, _, hch⟩ := hget j nd1 hj
    rw [hch]
    exact h.child_nodup j nd0 h0

theorem set_cache_preorderFuel {nodes : List Node} {i : Nat} {nd : Node} (k : Nat)
    (hi : nodes[i]? = some nd) :
    ∀ fuel m, preorderFuel (nodes.set i { nd with subtreeCache := some k }) fuel m
      = preorderFuel nodes fuel m := by
  intro fuel
  induction fuel with
  | zero => intro m; rfl
  | succ f ih =>
    intro m
    rw [preorderFuel, preorderFuel, set_cache_getElem k hi]
    have hfun : preorderFuel (nodes.set i { nd with subtreeCache := some k }) f
        = preorderFuel nodes f := funext ih
    by_cases hm : m = i
    · subst hm
      rw [if_pos rfl, hi, hfun]
    · rw [if_neg hm, hfun]

theorem set_cache_preorder {nodes : List Node} {i : Nat} {nd : Node} (k : Nat)
    (hi : nodes[i]? = some nd) (m : Nat) :
    preorder (nodes.set i { nd with subtreeCache := some k }) m = preorder nodes m := by
  unfold preorder
  rw [List.length_set, set_cache_preorderFuel k hi]

/-- The method `Tree::attachCache` in closed form: it returns, the clamped node `i` gets
the cache, no cache data changes, and the dirty flag is set on exactly the caches
attached to strict ancestors of `i`. -/
theorem attachCache_eq (t : Tree) (h : ArenaWF t.nodeData) (nodeId : Int) (k : Nat) :
    ∃ (i : Nat) (nd : Node) (m1 : CachePtr → Cache),
      (i : Int) = t.clampId nodeId ∧ t.nodeData[i]? = some nd ∧
      t.attachCache nodeId k
        = some { t with
            nodeData := t.nodeData.set i { nd with subtreeCache := some k }
            mem := m1 } ∧
      (∀ q, (m1 q).cacheData = (t.mem q).cacheData) ∧
      (∀ q, (m1 q).dirty = true ↔ ((t.mem q).dirty = true ∨
        ∃ a k1, Ancestor t.nodeData a i ∧ cacheAt t.nodeData a = some k1 ∧
          q = CachePtr.user k1)) := by
  obtain ⟨hiI, hi⟩ := clampId_toNat t h.nonempty nodeId
  obtain ⟨i, hidef⟩ : ∃ i, i = (t.clampId nodeId).toNat := ⟨_, rfl⟩
  rw [← hidef] at hiI hi
  obtain ⟨nd, hnd⟩ : ∃ nd, t.nodeData[i]? = some nd :=
    ⟨t.nodeData[i], List.getElem?_eq_getElem hi⟩
  have hwf2 := set_cache_wf h k hnd
  obtain ⟨m1, hrun, hdata, hflag⟩ :=
    markDirty_spec { t with nodeData := t.nodeData.set i { nd with subtreeCache := some k } }
      (fun j q hq => hwf2.parentOf_lt hq) i (by simp [hi])
  refine ⟨i, nd, m1, hiI, hnd, ?_, hdata, ?_⟩
  · unfold Tree.attachCache
    simp only [← hidef]
    rw [if_pos hi]
    unfold Tree.attachSubtreeCache
    simp only [hnd]
    rw [hrun]
  · intro q
    rw [hflag q]
    have hanc : ∀ a, Ancestor (t.nodeData.set i { nd with subtreeCache := some k }) a i
        ↔ Ancestor t.nodeData a i := by
      intro a
      constructor
      · rintro ⟨p, hp, ha⟩
        exact ⟨p, (set_cache_parentOf k hnd i) ▸ hp, (set_cache_ancOrSelf k hnd).1 ha⟩
      · rintro ⟨p, hp, ha⟩
        exact ⟨p, (set_cache_parentOf k hnd i).symm ▸ hp, (set_cache_ancOrSelf k hnd).2 ha⟩
    have hlt : ∀ a, Ancestor t.nodeData a i → a ≠ i := by
      rintro a ⟨p, hp, ha⟩
      have h1 := h.parentOf_lt hp
      have h2 := AncOrSelf.le h ha
      omega
    constructor
    · rintro (hq | ⟨a, k1, ha, hk, hq⟩)
      · exact Or.inl hq
      · have ha1 := (hanc a).1 ha
        change cacheAt (t.nodeData.set i { nd with subtreeCache := some k }) a = some k1 at hk
        rw [set_cache_cacheAt k hnd, if_neg (hlt a ha1)] at hk
        exact Or.inr ⟨a, k1, ha1, hk, hq⟩
    · rintro (hq | ⟨a, k1, ha, hk, hq⟩)
      · exact Or.inl hq
      · refine Or.inr ⟨a, k1, (hanc a).2 ha, ?_, hq⟩
        show cacheAt (t.nodeData.set i { nd with subtreeCache := some k }) a = some k1
        rw [set_cache_cacheAt k hnd, if_neg (hlt a ha)]
        exact hk

theorem not_attached_of_isAttached {nodes : List Node} {k : Nat}
    (h : isAttached nodes k = false) (j : Nat) : cacheAt nodes j ≠ some k := by
  intro hj
  have hlt : j < nodes.length := cacheAt_lt_length hj
  have hnd : nodes[j]? = some nodes[j] := List.getElem?_eq_getElem hlt
  rw [cacheAt_of_getElem hnd] at hj
  have : isAttached nodes k = true := by
    unfold isAttached
    rw [List.any_eq_true]
    exact ⟨nodes[j], List.getElem_mem hlt, by simp [hj]⟩
  rw [h] at this
  exact absurd this (by simp)

/-- The method `attachCache` keeps the invariant of the reachable states when the cache
it is given is dirty and attached to no other node. -/
theorem attachCache_inv {t t1 : Tree} (hinv : t.Inv) (nodeId : Int) (k : Nat)
    (hcontract : UnsharedDirty t nodeId k)
    (hrun : t.attachCache nodeId k = some t1) : t1.Inv := by
  have harena := hinv.wf.arena
  obtain ⟨hdirty, hfree⟩ := hcontract
  obtain ⟨i, nd, m1, hiI, hnd, heq, hdata, hflag⟩ := attachCache_eq t harena nodeId k
  rw [heq] at hrun
  have ht1 : t1 = { t with
      nodeData := t.nodeData.set i { nd with subtreeCache := some k }, mem := m1 } :=
    (Option.some.inj hrun).symm
  have hn1 : t1.nodeData = t.nodeData.set i { nd with subtreeCache := some k } := by rw [ht1]
  have hm1 : t1.mem = m1 := by rw [ht1]
  have hfree1 : ∀ j, cacheAt t.nodeData j = some k → j = i := by
    intro j hj
    have := hfree j hj
    rw [← hiI] at this
    exact Int.ofNat_inj.1 this
  have hcache : ∀ j c, cacheAt t1.nodeData j = some c →
      (j = i ∧ c = k) ∨ (j ≠ i ∧ c ≠ k ∧ cacheAt t.nodeData j = some c) := by
    intro j c hj
    rw [hn1, set_cache_cacheAt k hnd] at hj
    by_cases hji : j = i
    · rw [if_pos hji] at hj
      exact Or.inl ⟨hji, (Option.some.inj hj).symm⟩
    · rw [if_neg hji] at hj
      refine Or.inr ⟨hji, ?_, hj⟩
      intro hck
      subst hck
      exact hji (hfree1 j hj)
  have hkd : (m1 (CachePtr.user k)).dirty = true := (hflag _).2 (Or.inl hdirty)
  refine ⟨⟨?_, ?_, ?_⟩, ?_, ?_, ?_⟩
  · rw [hn1]; exact set_cache_wf harena k hnd
  · rw [ht1]; exact hinv.wf.root_eq
  · rw [ht1]; exact hinv.wf.queue_empty
  · intro x y c hx hy
    rcases hcache x c hx with ⟨hx1, hc⟩ | ⟨_, hck, hx1⟩
    · rcases hcache y c hy with ⟨hy1, _⟩ | ⟨_, hck, _⟩
      · rw [hx1, hy1]
      · exact absurd hc hck
    · rcases hcache y c hy with ⟨_, hc⟩ | ⟨_, _, hy1⟩
      · exact absurd hc hck
      · exact hinv.noalias x y c hx1 hy1
  · intro j c hj hcl
    rw [hm1] at hcl ⊢
    rcases hcache j c hj with ⟨_, hc⟩ | ⟨_, _, hj1⟩
    · rw [hc, hkd] at hcl
      exact absurd hcl (by simp)
    · have hold : (t.mem (CachePtr.user c)).dirty = false := by
        cases hd : (t.mem (CachePtr.user c)).dirty with
        | false => rfl
        | true =>
          rw [(hflag _).2 (Or.inl hd)] at hcl
          exact absurd hcl (by simp)
      rw [hdata, hinv.valid j c hj1 hold, hn1, set_cache_preorder k hnd]
  · intro a m ka km ham hca hcm hd
    rw [hn1, set_cache_ancOrSelf k hnd] at ham
    rw [hm1] at hd ⊢
    rcases hcache a ka hca with ⟨_, hka⟩ | ⟨hai, _, hca1⟩
    · rw [hka]; exact hkd
    · have hstrict : ∀ m0, AncOrSelf t.nodeData a m0 → m0 = i → Ancestor t.nodeData a i := by
        intro m0 h0 hm0
        subst hm0
        rcases ancOrSelf_iff.1 h0 with h | ⟨q, hq, haq⟩
        · exact absurd h hai
        · exact ⟨q, hq, haq⟩
      rcases hcache m km hcm with ⟨hmi, _⟩ | ⟨_, _, hcm1⟩
      · exact (hflag _).2 (Or.inr ⟨a, ka, hstrict m ham hmi, hca1, rfl⟩)
      · rcases (hflag _).1 hd with hd0 | ⟨a1, k1, ⟨q, hq, ha1q⟩, hk1, hqk⟩
        · exact (hflag _).2 (Or.inl (hinv.upClosed a m ka km ham hca1 hcm1 hd0))
        · have hkk : km = k1 := CachePtr.user.inj hqk
          rw [← hkk] at hk1
          have hma : a1 = m := hinv.noalias a1 m km hk1 hcm1
          rw [hma] at ha1q
          exact (hflag _).2 (Or.inr ⟨a, ka, ⟨q, hq, AncOrSelf.trans ham ha1q⟩, hca1, rfl⟩)

theorem CallerContract.unsharedDirty {t : Tree} {nodeId : Int} {k : Nat}
    (h : CallerContract t nodeId k) : UnsharedDirty t nodeId k :=
  ⟨h.1, fun j hj => absurd hj (not_attached_of_isAttached h.2 j)⟩

theorem new_arena_wf : ArenaWF Tree.new.nodeData := by
  have hget : ∀ (j : Nat) (nd : Node), Tree.new.nodeData[j]? = some nd → j = 0 ∧ nd = Node.new := by
    intro j nd hj
    cases j with
    | zero => exact ⟨rfl, (Option.some.inj hj).symm⟩
    | succ j => simp [Tree.new] at hj
  refine ⟨by simp [Tree.new], ?_, rfl, ?_, ?_, ?_, ?_⟩
  · intro j nd hj
    obtain ⟨h0, hnd⟩ := hget j nd hj
    subst h0; subst hnd; rfl
  · intro j hj0 hj
    simp [Tree.new] at hj
    omega
  · intro j nd c hj hc
    obtain ⟨_, hnd⟩ := hget j nd hj
    subst hnd
    simp [Node.new] at hc
  · intro j nd c hj hc
    obtain ⟨h0, hnd⟩ := hget j nd hj
    subst h0; subst hnd
    have hc0 : c = 0 := by simp [Tree.new] at hc; exact hc
    subst hc0
    simp [Node.new, parentOf, Tree.new]
  · intro j nd hj
    obtain ⟨_, hnd⟩ := hget j nd hj
    subst hnd
    simp [Node.new]

theorem new_cacheAt (j : Nat) : cacheAt Tree.new.nodeData j = none := by
  cases j with
  | zero => rfl
  | succ j => simp [cacheAt, Tree.new]

theorem new_inv : Tree.new.Inv := by
  refine ⟨⟨new_arena_wf, rfl, rfl⟩, ?_, ?_, ?_⟩
  · intro i j k hi
    rw [new_cacheAt] at hi
    exact absurd hi (by simp)
  · intro i k hi
    rw [new_cacheAt] at hi
    exact absurd hi (by simp)
  · intro a m ka km _ hca
    rw [new_cacheAt] at hca
    exact absurd hca (by simp)

/-- The method `submitOrderedTreeNodes` keeps the invariant of the reachable states. -/
theorem submitOrdered_inv {t t1 : Tree} (hinv : t.Inv)
    (hrun : t.submitOrderedTreeNodes = some t1) : t1.Inv := by
  obtain ⟨t2, hrun2, hn, hr, hq, _, _, hframe, hclean⟩ :=
    submitOrdered_spec hinv.wf hinv.noalias hinv.valid
  rw [hrun] at hrun2
  cases hrun2
  have hall := hclean hinv.upClosed
  refine ⟨⟨?_, ?_, hq⟩, ?_, ?_, ?_⟩
  · rw [hn]; exact hinv.wf.arena
  · rw [hr]; exact hinv.wf.root_eq
  · rw [hn]; exact hinv.noalias
  · intro i k hi hcl
    rw [hn] at hi ⊢
    rcases hframe k with heq | ⟨m, hm, _, hd⟩
    · rw [heq] at hcl ⊢
      exact hinv.valid i k hi hcl
    · have hmi : m = i := hinv.noalias m i k hm hi
      rw [← hmi]
      exact hd
  · intro a m ka km _ _ hcm hd
    rw [hall m km hcm] at hd
    exact absurd hd (by simp)

/-- Every state reachable under a contract that makes the attached caches dirty and
unshared satisfies the invariant. -/
theorem ReachableUnder.inv_of_contract {contract : Tree → Int → Nat → Prop}
    (hc : ∀ t nodeId k, contract t nodeId k → UnsharedDirty t nodeId k) {t : Tree}
    (h : ReachableUnder contract t) : t.Inv := by
  induction h with
  | new => exact new_inv
  | insert parentId _ hrun ih => exact insertTreeNode_inv ih parentId hrun
  | attach nodeId k _ hk hrun ih => exact attachCache_inv ih nodeId k (hc _ _ _ hk) hrun
  | submit _ hrun ih => exact submitOrdered_inv ih hrun

/-- Every state reachable under the caller contract satisfies the invariant. -/
theorem Reachable.inv {t : Tree} (h : Reachable t) : t.Inv :=
  ReachableUnder.inv_of_contract (fun _ _ _ hk => hk.unsharedDirty) h

/-! ## Concrete runs are reachable -/

theorem unshared_of_not_attached {t : Tree} {k : Nat} (nodeId : Int)
    (h : isAttached t.nodeData k = false) : Unshared t nodeId k :=
  fun j hj => absurd hj (not_attached_of_isAttached h j)

theorem chain1_reachable : Reachable chain1 :=
  ReachableUnder.insert 0 ReachableUnder.new (rfl : Tree.new.insertTreeNode 0 = some chain1)

theorem chain2_reachable : Reachable chain2 :=
  ReachableUnder.insert 1 chain1_reachable (rfl : chain1.insertTreeNode 1 = some chain2)

theorem chain3_reachable : Reachable chain3 :=
  ReachableUnder.attach 1 0 chain2_reachable ⟨rfl, rfl⟩
    (rfl : chain2.attachCache 1 0 = some chain3)

theorem chain4_reachable : Reachable chain4 :=
  ReachableUnder.attach 0 1 chain3_reachable ⟨rfl, rfl⟩
    (rfl : chain3.attachCache 0 1 = some chain4)

theorem chain5_reachable : Reachable chain5 :=
  ReachableUnder.submit chain4_reachable (rfl : chain4.submitOrderedTreeNodes = some chain5)

theorem scenario3_reachable : Reachable scenario3 :=
  ReachableUnder.insert 0
    (ReachableUnder.insert 0
      (ReachableUnder.insert 0 ReachableUnder.new
        (rfl : Tree.new.insertTreeNode 0 = some scenario1))
      (rfl : scenario1.insertTreeNode 0 = some scenario2))
    (rfl : scenario2.insertTreeNode 0 = some scenario3)

theorem stale5_reachable : ReachableUnder Unshared stale5 :=
  ReachableUnder.attach 0 0
    (ReachableUnder.attach 1 1
      (ReachableUnder.submit
        (ReachableUnder.attach 1 0
          (ReachableUnder.insert 0 ReachableUnder.new
            (rfl : Tree.new.insertTreeNode 0 = some stale1))
          (unshared_of_not_attached 1 rfl)
          (rfl : stale1.attachCache 1 0 = some stale2))
        (rfl : stale2.submitOrderedTreeNodes = some stale3))
      (unshared_of_not_attached 1 rfl)
      (rfl : stale3.attachCache 1 1 = some stale4))
    (unshared_of_not_attached 0 rfl)
    (rfl : stale4.attachCache 0 0 = some stale5)

/-! ## The claims -/

theorem clampId_eq_min_max (t : Tree) (hn : 0 < t.nodeData.length) (x : Int) :
    t.clampId x = min (max x 0) ((t.nodeData.length : Int) - 1) := by
  unfold Tree.clampId
  omega

theorem CachesValid.withDirty {t : Tree} (h : CachesValid t) (c : Nat) :
    CachesValid (t.withDirty c) := by
  intro i k hi hcl
  by_cases hk : k = c
  · subst hk
    simp [Tree.withDirty, Cache.markDirty] at hcl
  · have hp : CachePtr.user k ≠ CachePtr.user c := by simpa using hk
    have hm : (t.withDirty c).mem (CachePtr.user k) = t.mem (CachePtr.user k) := by
      simp [Tree.withDirty, Function.update_noteq hp]
    rw [hm] at hcl ⊢
    exact h i k hi hcl

theorem ReachableUnder.mono {c1 c2 : Tree → Int → Nat → Prop}
    (hc : ∀ t nodeId k, c1 t nodeId k → c2 t nodeId k) {t : Tree}
    (h : ReachableUnder c1 t) : ReachableUnder c2 t := by
  induction h with
  | new => exact ReachableUnder.new
  | insert parentId _ hrun ih => exact ReachableUnder.insert parentId ih hrun
  | attach nodeId k _ hk hrun ih => exact ReachableUnder.attach nodeId k ih (hc _ _ _ hk) hrun
  | submit _ hrun ih => exact ReachableUnder.submit ih hrun

/-- Claim C1 (order preservation).  In every state reachable under the caller contract
`submitOrderedTreeNodes` returns, leaves the tree as it is, and leaves in `finalCache` the
depth-first preorder id sequence of the tree from the root, where the preorder of a node
is its id followed by the preorders of its children in child-list order. -/
theorem collectOrdered_is_preorder (t : Tree) (h : Reachable t) :
    ∃ t1, t.submitOrderedTreeNodes = some t1 ∧ t1.nodeData = t.nodeData ∧
      t1.finalCache.getCachedData = preorder t.nodeData t.root ∧
      ∀ (i : Nat) (nd : Node), t.nodeData[i]? = some nd →
        preorder t.nodeData i = nd.id :: (nd.children.map (preorder t.nodeData)).flatten := by
  have hinv := Reachable.inv h
  obtain ⟨t1, hrun, hn, _, _, _, hout, _, _⟩ :=
    submitOrdered_spec hinv.wf hinv.noalias hinv.valid
  exact ⟨t1, hrun, hn, hout, fun i nd hnd => preorder_unfold hinv.wf.arena hnd⟩

theorem collectOrdered_is_preorder_witness :
    Reachable chain4 ∧
    ∃ t1, chain4.submitOrderedTreeNodes = some t1 ∧ t1.nodeData = chain4.nodeData ∧
      t1.finalCache.getCachedData = preorder chain4.nodeData chain4.root ∧
      ∀ (i : Nat) (nd : Node), chain4.nodeData[i]? = some nd →
        preorder chain4.nodeData i
          = nd.id :: (nd.children.map (preorder chain4.nodeData)).flatten :=
  ⟨chain4_reachable, collectOrdered_is_preorder chain4 chain4_reachable⟩

/-- Claim C2 (post-traversal cache state).  In every state reachable under the caller
contract `submitOrderedTreeNodes` returns, and in the resulting state every cache
attached to a node is clean and holds the preorder id sequence of the subtree of that
node. -/
theorem caches_clean_and_valid_after_submit (t : Tree) (h : Reachable t) :
    ∃ t1, t.submitOrderedTreeNodes = some t1 ∧
      ∀ i k, cacheAt t1.nodeData i = some k →
        (t1.mem (CachePtr.user k)).dirty = false ∧
        (t1.mem (CachePtr.user k)).cacheData = preorder t1.nodeData i := by
  have hinv := Reachable.inv h
  obtain ⟨t1, hrun, _, _, _, _, _, _, hclean⟩ :=
    submitOrdered_spec hinv.wf hinv.noalias hinv.valid
  have hinv1 := submitOrdered_inv hinv hrun
  have hall := hclean hinv.upClosed
  exact ⟨t1, hrun, fun i k hi => ⟨hall i k hi, hinv1.valid i k hi (hall i k hi)⟩⟩

theorem caches_clean_and_valid_after_submit_witness :
    Reachable chain4 ∧
    ∃ t1, chain4.submitOrderedTreeNodes = some t1 ∧
      ∀ i k, cacheAt t1.nodeData i = some k →
        (t1.mem (CachePtr.user k)).dirty = false ∧
        (t1.mem (CachePtr.user k)).cacheData = preorder t1.nodeData i :=
  ⟨chain4_reachable, caches_clean_and_valid_after_submit chain4 chain4_reachable⟩

/-- Claim C3 (memoization correctness).  In a state reachable under the caller contract,
let `c` be a clean cache attached to a node `n`.  The traversal of the state and the
traversal of the state in which `c` has been marked dirty both return, with the same
output sequence. -/
theorem rebuild_is_idempotent (s : Tree) (h : Reachable s) (n c : Nat)
    (_hat : cacheAt s.nodeData n = some c)
    (_hclean : (s.mem (CachePtr.user c)).dirty = false) :
    ∃ t1 t2, s.submitOrderedTreeNodes = some t1 ∧
      (s.withDirty c).submitOrderedTreeNodes = some t2 ∧
      t2.finalCache.getCachedData = t1.finalCache.getCachedData := by
  have hinv := Reachable.inv h
  obtain ⟨t1, hrun1, _, _, _, _, hout1, _, _⟩ :=
    submitOrdered_spec hinv.wf hinv.noalias hinv.valid
  have hwf2 : (s.withDirty c).WF := ⟨hinv.wf.arena, hinv.wf.root_eq, hinv.wf.queue_empty⟩
  obtain ⟨t2, hrun2, _, _, _, _, hout2, _, _⟩ :=
    submitOrdered_spec hwf2 hinv.noalias (hinv.valid.withDirty c)
  refine ⟨t1, t2, hrun1, hrun2, ?_⟩
  show (t2.mem CachePtr.final).cacheData = (t1.mem CachePtr.final).cacheData
  rw [hout1, hout2]
  rfl

theorem rebuild_is_idempotent_witness :
    Reachable chain5 ∧ cacheAt chain5.nodeData 0 = some 1 ∧
    (chain5.mem (CachePtr.user 1)).dirty = false ∧
    (∃ t1 t2, chain5.submitOrderedTreeNodes = some t1 ∧
      (chain5.withDirty 1).submitOrderedTreeNodes = some t2 ∧
      t2.finalCache.getCachedData = t1.finalCache.getCachedData) ∧
    (submitNodeRebuilds (chain5.withDirty 1).nodeData.length
      ((chain5.withDirty 1).beginCaching CachePtr.final) (chain5.withDirty 1).root).map Prod.snd
      = some [0] ∧
    (submitNodeRebuilds chain5.nodeData.length
      (chain5.beginCaching CachePtr.final) chain5.root).map Prod.snd = some [] ∧
    (Tree.result (chain5.withDirty 1).submitOrderedTreeNodes).finalCache.getCachedData
      = [0, 1, 2] :=
  ⟨chain5_reachable, rfl, rfl, rebuild_is_idempotent chain5 chain5_reachable 0 1 rfl rfl,
    rfl, rfl, rfl⟩

/-- Claim C4 (dirty propagation on insertion).  On a well-formed arena of `n` nodes
`insertTreeNode(parentId)` returns, and with `p = min(max(parentId, 0), n-1)` every cache
attached to `p` or to an ancestor of `p`, up to the root, is dirty in the resulting state:
the walk does not stop at the nearest cached ancestor. -/
theorem insert_dirties_all_ancestors (t : Tree) (hwf : ArenaWF t.nodeData) (parentId : Int) :
    ∃ (t1 : Tree) (p : Nat), t.insertTreeNode parentId = some t1 ∧
      (p : Int) = min (max parentId 0) ((t.nodeData.length : Int) - 1) ∧
      ∀ a k, AncOrSelf t1.nodeData a p → cacheAt t1.nodeData a = some k →
        (t1.mem (CachePtr.user k)).dirty = true := by
  obtain ⟨p, ndp, m1, hp, hndp, heq, _, hflag⟩ := insertTreeNode_eq t hwf parentId
  refine ⟨_, p, heq, hp.trans (clampId_eq_min_max t hwf.nonempty parentId), ?_⟩
  intro a k ha hk
  have hlt : p < t.nodeData.length := (List.getElem?_eq_some.1 hndp).1
  change AncOrSelf (growArena t.nodeData p ndp) a p at ha
  change cacheAt (growArena t.nodeData p ndp) a = some k at hk
  rw [growArena_ancOrSelf hwf hndp hlt] at ha
  rw [growArena_cacheAt hndp] at hk
  exact (hflag _).2 (Or.inr ⟨a, k, ha, hk, rfl⟩)

theorem insert_dirties_all_ancestors_witness :
    ArenaWF chain5.nodeData ∧
    ∃ (t1 : Tree) (p : Nat), chain5.insertTreeNode 999 = some t1 ∧
      (p : Int) = min (max 999 0) ((chain5.nodeData.length : Int) - 1) ∧
      ∀ a k, AncOrSelf t1.nodeData a p → cacheAt t1.nodeData a = some k →
        (t1.mem (CachePtr.user k)).dirty = true :=
  ⟨(Reachable.inv chain5_reachable).wf.arena,
    insert_dirties_all_ancestors chain5 (Reachable.inv chain5_reachable).wf.arena 999⟩

/-- Claim C5 (dirty propagation on cache attachment).  On a well-formed arena of `n`
nodes `attachCache(nodeId, c)` returns, and with `k = min(max(nodeId, 0), n-1)` the cache
attached to node `k` in the resulting state is `c` and every cache attached to a strict
ancestor of `k` is dirty. -/
theorem attach_dirties_strict_ancestors (t : Tree) (hwf : ArenaWF t.nodeData) (nodeId : Int)
    (c : Nat) :
    ∃ (t1 : Tree) (k : Nat), t.attachCache nodeId c = some t1 ∧
      (k : Int) = min (max nodeId 0) ((t.nodeData.length : Int) - 1) ∧
      cacheAt t1.nodeData k = some c ∧
      ∀ a ka, Ancestor t1.nodeData a k → cacheAt t1.nodeData a = some ka →
        (t1.mem (CachePtr.user ka)).dirty = true := by
  obtain ⟨i, nd, m1, hi, hnd, heq, _, hflag⟩ := attachCache_eq t hwf nodeId c
  refine ⟨_, i, heq, hi.trans (clampId_eq_min_max t hwf.nonempty nodeId), ?_, ?_⟩
  · show cacheAt (t.nodeData.set i { nd with subtreeCache := some c }) i = some c
    rw [set_cache_cacheAt c hnd, if_pos rfl]
  · intro a ka ha hka
    change Ancestor (t.nodeData.set i { nd with subtreeCache := some c }) a i at ha
    change cacheAt (t.nodeData.set i { nd with subtreeCache := some c }) a = some ka at hka
    obtain ⟨q, hq, haq⟩ := ha
    rw [set_cache_parentOf c hnd] at hq
    rw [set_cache_ancOrSelf c hnd] at haq
    have hne : a ≠ i := by
      have h1 := hwf.parentOf_lt hq
      have h2 := AncOrSelf.le hwf haq
      omega
    rw [set_cache_cacheAt c hnd, if_neg hne] at hka
    exact (hflag _).2 (Or.inr ⟨a, ka, ⟨q, hq, haq⟩, hka, rfl⟩)

theorem attach_dirties_strict_ancestors_witness :
    ArenaWF chain5.nodeData ∧
    ∃ (t1 : Tree) (k : Nat), chain5.attachCache 7 2 = some t1 ∧
      (k : Int) = min (max 7 0) ((chain5.nodeData.length : Int) - 1) ∧
      cacheAt t1.nodeData k = some 2 ∧
      ∀ a ka, Ancestor t1.nodeData a k → cacheAt t1.nodeData a = some ka →
        (t1.mem (CachePtr.user ka)).dirty = true :=
  ⟨(Reachable.inv chain5_reachable).wf.arena,
    attach_dirties_strict_ancestors chain5 (Reachable.inv chain5_reachable).wf.arena 7 2⟩

theorem Cache.ext_fields {a b : Cache} (hd : a.dirty = b.dirty)
    (hc : a.cacheData = b.cacheData) : a = b := by
  cases a
  cases b
  simp at hd hc
  simp [hd, hc]

/-- Claim C7 (clamping of `insertTreeNode`).  On a tree of `n >= 1` nodes
`insertTreeNode(parentId)` gives the same result as
`insertTreeNode(min(max(parentId, 0), n-1))`, and on a well-formed arena that result is a
state; on a tree of 4 nodes `insertTreeNode(-5)` gives the result of `insertTreeNode(0)`
and `insertTreeNode(999)` the result of `insertTreeNode(3)`. -/
theorem insert_clamps (t : Tree) (hn : 1 ≤ t.nodeData.length) (parentId : Int) :
    t.insertTreeNode parentId
        = t.insertTreeNode (min (max parentId 0) ((t.nodeData.length : Int) - 1)) ∧
      (ArenaWF t.nodeData → ∃ t1, t.insertTreeNode parentId = some t1) ∧
      (t.nodeData.length = 4 →
        t.insertTreeNode (-5) = t.insertTreeNode 0 ∧
        t.insertTreeNode 999 = t.insertTreeNode 3) := by
  have hclamp : ∀ x y : Int, t.clampId x = t.clampId y →
      t.insertTreeNode x = t.insertTreeNode y := by
    intro x y hxy
    unfold Tree.insertTreeNode
    rw [hxy]
  refine ⟨hclamp _ _ ?_, ?_, ?_⟩
  · unfold Tree.clampId
    omega
  · intro hwf
    obtain ⟨p, ndp, m1, _, _, heq, _, _⟩ := insertTreeNode_eq t hwf parentId
    exact ⟨_, heq⟩
  · intro h4
    constructor
    · apply hclamp
      unfold Tree.clampId
      omega
    · apply hclamp
      unfold Tree.clampId
      omega

theorem insert_clamps_witness :
    1 ≤ scenario3.nodeData.length ∧
    (scenario3.insertTreeNode (-5)
        = scenario3.insertTreeNode (min (max (-5) 0) ((scenario3.nodeData.length : Int) - 1)) ∧
      (ArenaWF scenario3.nodeData → ∃ t1, scenario3.insertTreeNode (-5) = some t1) ∧
      (scenario3.nodeData.length = 4 →
        scenario3.insertTreeNode (-5) = scenario3.insertTreeNode 0 ∧
        scenario3.insertTreeNode 999 = scenario3.insertTreeNode 3)) :=
  ⟨by decide, insert_clamps scenario3 (by decide) (-5)⟩

/-- Claim C8 (concrete scenario).  From a new tree three `insertTreeNode(0)` calls create
the nodes 1, 2, 3 as the children of the root in that order and the traversal yields
`[0,1,2,3]`; after `attachCache(1, c)` with the new cache `c` (handle 0) it still yields
`[0,1,2,3]`; after `insertTreeNode(1)` has created node 4 the cache is dirty, and the next
traversal yields `[0,1,4,2,3]` and leaves the cache clean with data `[1,4]`. -/
theorem concrete_scenario :
    Tree.new.insertTreeNode 0 = some scenario1 ∧
    scenario1.insertTreeNode 0 = some scenario2 ∧
    scenario2.insertTreeNode 0 = some scenario3 ∧
    scenario3.nodeData
      = [⟨0, none, [1, 2, 3], none⟩, ⟨1, some 0, [], none⟩, ⟨2, some 0, [], none⟩,
         ⟨3, some 0, [], none⟩] ∧
    scenario3.submitOrderedTreeNodes = some scenario4 ∧
    scenario4.finalCache.getCachedData = [0, 1, 2, 3] ∧
    scenario4.mem (CachePtr.user 0) = Cache.new ∧
    scenario4.attachCache 1 0 = some scenario5 ∧
    cacheAt scenario5.nodeData 1 = some 0 ∧
    scenario5.submitOrderedTreeNodes = some scenario6 ∧
    scenario6.finalCache.getCachedData = [0, 1, 2, 3] ∧
    scenario6.insertTreeNode 1 = some scenario7 ∧
    scenario7.nodeData[4]? = some ⟨4, some 1, [], none⟩ ∧
    (scenario7.mem (CachePtr.user 0)).getDirty = true ∧
    scenario7.submitOrderedTreeNodes = some scenario8 ∧
    scenario8.finalCache.getCachedData = [0, 1, 4, 2, 3] ∧
    scenario8.mem (CachePtr.user 0) = ⟨false, [1, 4]⟩ :=
  ⟨rfl, rfl, rfl, rfl, rfl, rfl, rfl, rfl, rfl, rfl, rfl, rfl, rfl, rfl, rfl, rfl, rfl⟩

/-- Claim C9 as stated fails.  In the run `stale1 .. stale5` no cache is ever attached to
two nodes at once, yet at the end the clean cache 0 is attached to the root and holds
`[1]`, while the preorder of the root is `[0, 1]`. -/
theorem reattached_clean_cache_is_stale :
    ReachableUnder Unshared stale5 ∧
    cacheAt stale5.nodeData 0 = some 0 ∧
    (stale5.mem (CachePtr.user 0)).dirty = false ∧
    (stale5.mem (CachePtr.user 0)).cacheData = [1] ∧
    preorder stale5.nodeData 0 = [0, 1] ∧
    ¬ CachesValid stale5 :=
  ⟨stale5_reachable, rfl, rfl, rfl, rfl, fun h => absurd (h 0 0 rfl rfl) (by decide)⟩

/-- Claim C9 as amended.  In every state reachable by `insertTreeNode`, `attachCache` and
`submitOrderedTreeNodes` calls in which the cache handed to `attachCache` is dirty at the
time of the call and attached to no node other than the one receiving it, every attached
cache whose dirty flag is false holds the preorder id sequence of the subtree of the node
it is attached to. -/
theorem clean_caches_valid_when_attached_dirty (t : Tree)
    (h : ReachableUnder UnsharedDirty t) : CachesValid t :=
  (ReachableUnder.inv_of_contract (fun _ _ _ hk => hk) h).valid

theorem clean_caches_valid_when_attached_dirty_witness :
    ReachableUnder UnsharedDirty chain5 ∧ CachesValid chain5 :=
  ⟨ReachableUnder.mono (fun _ _ _ hk => hk.unsharedDirty) chain5_reachable,
    clean_caches_valid_when_attached_dirty chain5
      (ReachableUnder.mono (fun _ _ _ hk => hk.unsharedDirty) chain5_reachable)⟩

/-- Claim C10 (postcondition of `insertTreeNode`).  On a well-formed arena of `n` nodes
`insertTreeNode(parentId)` returns; the arena then has `n + 1` nodes; the new node, at
index `n`, has id `n`, parent `p = min(max(parentId, 0), n-1)`, no children and no cache;
node `p` is as before except that `n` has been appended to its child list; and every
other node is as before. -/
theorem insert_postcondition (t : Tree) (hwf : ArenaWF t.nodeData) (parentId : Int) :
    ∃ (t1 : Tree) (p : Nat) (ndp : Node), t.insertTreeNode parentId = some t1 ∧
      (p : Int) = min (max parentId 0) ((t.nodeData.length : Int) - 1) ∧
      t1.nodeData.length = t.nodeData.length + 1 ∧
      t1.nodeData[t.nodeData.length]?
        = some ⟨(t.nodeData.length : Int), some p, [], none⟩ ∧
      t.nodeData[p]? = some ndp ∧
      t1.nodeData[p]? = some { ndp with children := ndp.children ++ [t.nodeData.length] } ∧
      ∀ j, j ≠ p → j < t.nodeData.length → t1.nodeData[j]? = t.nodeData[j]? := by
  obtain ⟨p, ndp, m1, hp, hndp, heq, _, _⟩ := insertTreeNode_eq t hwf parentId
  refine ⟨_, p, ndp, heq, hp.trans (clampId_eq_min_max t hwf.nonempty parentId),
    growArena_length _ _ _, growArena_getElem_new hndp, hndp, growArena_getElem_parent hndp, ?_⟩
  intro j hjp hj
  exact growArena_getElem_other hjp (Nat.ne_of_lt hj)

theorem insert_postcondition_witness :
    ArenaWF chain5.nodeData ∧
    ∃ (t1 : Tree) (p : Nat) (ndp : Node), chain5.insertTreeNode 1 = some t1 ∧
      (p : Int) = min (max 1 0) ((chain5.nodeData.length : Int) - 1) ∧
      t1.nodeData.length = chain5.nodeData.length + 1 ∧
      t1.nodeData[chain5.nodeData.length]?
        = some ⟨(chain5.nodeData.length : Int), some p, [], none⟩ ∧
      chain5.nodeData[p]? = some ndp ∧
      t1.nodeData[p]?
        = some { ndp with children := ndp.children ++ [chain5.nodeData.length] } ∧
      ∀ j, j ≠ p → j < chain5.nodeData.length → t1.nodeData[j]? = chain5.nodeData[j]? :=
  ⟨(Reachable.inv chain5_reachable).wf.arena,
    insert_postcondition chain5 (Reachable.inv chain5_reachable).wf.arena 1⟩

/-! ## Termination and visits of the traversal on any well-formed arena -/

theorem forEachVisits_fst (body : Tree → Nat → Option (Tree × List Nat))
    (body0 : Tree → Nat → Option Tree)
    (h : ∀ t c, (body t c).map Prod.fst = body0 t c) :
    ∀ (cs : List Nat) (t : Tree),
      (forEachVisits body t cs).map Prod.fst = Tree.forEach body0 t cs := by
  intro cs
  induction cs with
  | nil => intro t; rfl
  | cons c cs ih =>
    intro t
    rw [forEachVisits, Tree.forEach, ← h t c]
    cases h1 : body t c with
    | none => rfl
    | some r1 =>
      obtain ⟨t1, v1⟩ := r1
      simp only [Option.map_some']
      rw [← ih t1]
      cases h2 : forEachVisits body t1 cs with
      | none => rfl
      | some r2 => rfl

/-- Forgetting the visit list of the instrumented traversal gives `Tree.submitNode`. -/
theorem submitNodeVisits_fst :
    ∀ (fuel : Nat) (t : Tree) (i : Nat),
      (submitNodeVisits fuel t i).map Prod.fst = Tree.submitNode fuel t i := by
  intro fuel
  induction fuel with
  | zero => intro t i; rfl
  | succ f ih =>
    intro t i
    have hloop := forEachVisits_fst (submitNodeVisits f) (Tree.submitNode f) ih
    rw [submitNodeVisits, Tree.submitNode]
    cases hnd : t.nodeData[i]? with
    | none => rfl
    | some nd =>
      simp only
      cases hsc : nd.subtreeCache with
      | none =>
        simp only
        cases h1 : t.submitToBack nd.id with
        | none => rfl
        | some t1 =>
          simp only
          rw [← hloop nd.children t1]
          cases h2 : forEachVisits (submitNodeVisits f) t1 nd.children with
          | none => rfl
          | some r2 => rfl
      | some k =>
        simp only
        cases hd : (t.mem (CachePtr.user k)).getDirty with
        | false =>
          simp only [Bool.false_eq_true, if_false]
          cases h4 : t.submitCache (CachePtr.user k) with
          | none => rfl
          | some t4 => rfl
        | true =>
          simp only [if_true]
          cases h1 : (t.beginCaching (CachePtr.user k)).submitToBack nd.id with
          | none => rfl
          | some t1 =>
            simp only
            rw [← hloop nd.children t1]
            cases h2 : forEachVisits (submitNodeVisits f) t1 nd.children with
            | none => rfl
            | some r2 =>
              obtain ⟨t2, vs⟩ := r2
              simp only [Option.map_some']
              cases h3 : t2.endCaching (CachePtr.user k) with
              | none => rfl
              | some t3 =>
                simp only
                cases h4 : t3.submitCache (CachePtr.user k) with
                | none => rfl
                | some t4 => rfl

/-- The ancestors of a node form a chain. -/
theorem AncOrSelf.linear {nodes : List Node} {a b m : Nat} (ha : AncOrSelf nodes a m)
    (hb : AncOrSelf nodes b m) : AncOrSelf nodes a b ∨ AncOrSelf nodes b a := by
  induction hb with
  | refl => exact Or.inl ha
  | @step p m hp hbp ih =>
    rcases ancOrSelf_iff.1 ha with h | ⟨q, hq, haq⟩
    · subst h
      exact Or.inr (AncOrSelf.step hp hbp)
    · rw [hp] at hq
      cases hq
      exact ih haq

/-- The subtrees of two different children of a node have no node in common. -/
theorem siblings_disjoint {nodes : List Node} (h : ArenaWF nodes) {i c1 c2 m : Nat}
    (h1 : parentOf nodes c1 = some i) (h2 : parentOf nodes c2 = some i) (hne : c1 ≠ c2)
    (hm1 : AncOrSelf nodes c1 m) (hm2 : AncOrSelf nodes c2 m) : False := by
  have key : ∀ x y, parentOf nodes x = some i → parentOf nodes y = some i → x ≠ y →
      AncOrSelf nodes x y → False := by
    intro x y hx hy hxy hanc
    rcases ancOrSelf_iff.1 hanc with heq | ⟨q, hq, hxq⟩
    · exact hxy heq
    · rw [hy] at hq
      cases hq
      have hle := AncOrSelf.le h hxq
      have hlt := h.parentOf_lt hx
      omega
  rcases AncOrSelf.linear hm1 hm2 with h12 | h21
  · exact key c1 c2 h1 h2 hne h12
  · exact key c2 c1 h2 h1 (Ne.symm hne) h21

/-- The loop over the children of `i`: it returns, keeps the arena and the stack, and
visits no node twice. -/
theorem forEachVisits_spec (body : Tree → Nat → Option (Tree × List Nat)) (nodes : List Node)
    (hwf : ArenaWF nodes) (q : List CachePtr) (i : Nat) :
    ∀ (cs : List Nat) (t : Tree), t.nodeData = nodes → t.cacheQueue = q → cs.Nodup →
      (∀ c ∈ cs, parentOf nodes c = some i) →
      (∀ c ∈ cs, ∀ t0 : Tree, t0.nodeData = nodes → t0.cacheQueue = q →
        ∃ t1 vs, body t0 c = some (t1, vs) ∧ t1.nodeData = nodes ∧ t1.root = t0.root ∧
          t1.cacheQueue = q ∧ vs.Nodup ∧ ∀ m ∈ vs, AncOrSelf nodes c m) →
      ∃ t2 vs, forEachVisits body t cs = some (t2, vs) ∧ t2.nodeData = nodes ∧
        t2.root = t.root ∧ t2.cacheQueue = q ∧ vs.Nodup ∧
        ∀ m ∈ vs, ∃ c ∈ cs, AncOrSelf nodes c m := by
  intro cs
  induction cs with
  | nil =>
    intro t hn hq _ _ _
    exact ⟨t, [], rfl, hn, rfl, hq, List.nodup_nil, fun m hm => absurd hm (List.not_mem_nil m)⟩
  | cons c cs ih =>
    intro t hn hq hnd hpar hbody
    obtain ⟨t1, v1, hrun1, hn1, hr1, hq1, hv1, hsub1⟩ :=
      hbody c (List.mem_cons_self _ _) t hn hq
    obtain ⟨t2, v2, hrun2, hn2, hr2, hq2, hv2, hsub2⟩ := ih t1 hn1 hq1
      (List.nodup_cons.1 hnd).2 (fun x hx => hpar x (List.mem_cons_of_mem _ hx))
      (fun x hx => hbody x (List.mem_cons_of_mem _ hx))
    refine ⟨t2, v1 ++ v2, ?_, hn2, hr2.trans hr1, hq2, ?_, ?_⟩
    · rw [forEachVisits, hrun1]
      simp only
      rw [hrun2]
    · rw [List.nodup_append]
      refine ⟨hv1, hv2, ?_⟩
      intro m hm1 hm2
      obtain ⟨c2, hc2, hanc2⟩ := hsub2 m hm2
      have hne : c ≠ c2 := by
        intro heq
        subst heq
        exact (List.nodup_cons.1 hnd).1 hc2
      exact siblings_disjoint hwf (hpar c (List.mem_cons_self _ _))
        (hpar c2 (List.mem_cons_of_mem _ hc2)) hne (hsub1 m hm1) hanc2
    · intro m hm
      rcases List.mem_append.1 hm with h | h
      · exact ⟨c, List.mem_cons_self _ _, hsub1 m h⟩
      · obtain ⟨c2, hc2, hanc2⟩ := hsub2 m h
        exact ⟨c2, List.mem_cons_of_mem _ hc2, hanc2⟩

/-- On a well-formed arena and a non-empty stack the instrumented `Tree::submitNode`
returns when the fuel covers the distance from the node to the end of the arena; it keeps
the arena, the root and the stack, and visits only nodes of the subtree, none twice. -/
theorem submitNodeVisits_spec :
    ∀ (fuel : Nat) (t : Tree) (i : Nat) (top : CachePtr) (rest : List CachePtr),
      ArenaWF t.nodeData → t.cacheQueue = top :: rest → i < t.nodeData.length →
      t.nodeData.length - i ≤ fuel →
      ∃ t1 vs, submitNodeVisits fuel t i = some (t1, vs) ∧ t1.nodeData = t.nodeData ∧
        t1.root = t.root ∧ t1.cacheQueue = t.cacheQueue ∧ vs.Nodup ∧
        ∀ m ∈ vs, AncOrSelf t.nodeData i m := by
  intro fuel
  induction fuel with
  | zero =>
    intro t i top rest _ _ hi hf
    omega
  | succ f ih =>
    intro t i top rest hwf hq hi hf
    obtain ⟨nd, hnd⟩ : ∃ nd, t.nodeData[i]? = some nd :=
      ⟨t.nodeData[i], List.getElem?_eq_getElem hi⟩
    -- the loop over the children, from any state over the same arena
    have hloop : ∀ (t0 : Tree) (top0 : CachePtr) (rest0 : List CachePtr),
        t0.nodeData = t.nodeData → t0.cacheQueue = top0 :: rest0 →
        ∃ t2 vs, forEachVisits (submitNodeVisits f) t0 nd.children = some (t2, vs) ∧
          t2.nodeData = t.nodeData ∧ t2.root = t0.root ∧ t2.cacheQueue = top0 :: rest0 ∧
          (i :: vs).Nodup ∧ ∀ m ∈ i :: vs, AncOrSelf t.nodeData i m := by
      intro t0 top0 rest0 hn0 hq0
      obtain ⟨t2, vs, hrun, hn2, hr2, hq2, hnodup, hsub⟩ :=
        forEachVisits_spec (submitNodeVisits f) t.nodeData hwf (top0 :: rest0) i
          nd.children t0 hn0 hq0 (hwf.child_nodup i nd hnd)
          (fun c hc => hwf.child_parent hnd hc)
          (fun c hc t1 hn1 hq1 => by
            have hgt := hwf.child_gt hnd hc
            have hlt := hwf.child_lt i nd c hnd hc
            obtain ⟨t3, v3, h3, h3n, h3r, h3q, h3v, h3s⟩ :=
              ih t1 c top0 rest0 (by rw [hn1]; exact hwf) hq1 (by rw [hn1]; exact hlt)
                (by rw [hn1]; omega)
            refine ⟨t3, v3, h3, h3n.trans hn1, h3r, h3q.trans hq1, h3v, ?_⟩
            rw [hn1] at h3s
            exact h3s)
      refine ⟨t2, vs, hrun, hn2, hr2, hq2, ?_, ?_⟩
      · rw [List.nodup_cons]
        refine ⟨?_, hnodup⟩
        intro hmem
        obtain ⟨c, hc, hanc⟩ := hsub i hmem
        have hgt := hwf.child_gt hnd hc
        have hle := AncOrSelf.le hwf hanc
        omega
      · intro m hm
        rcases List.mem_cons.1 hm with h | h
        · rw [h]; exact AncOrSelf.refl i
        · obtain ⟨c, hc, hanc⟩ := hsub m h
          exact AncOrSelf.of_child hwf hnd hc hanc
    rw [submitNodeVisits, hnd]
    simp only
    cases hsc : nd.subtreeCache with
    | none =>
      simp only
      rw [submitToBack_eq hq]
      simp only
      obtain ⟨t2, vs, hrun, hn2, hr2, hq2, hnodup, hsub⟩ :=
        hloop { t with mem := Function.update t.mem top ((t.mem top).submitNode nd.id) }
          top rest rfl hq
      rw [hrun]
      exact ⟨t2, i :: vs, rfl, hn2, hr2, hq2.trans hq.symm, hnodup, hsub⟩
    | some k =>
      simp only
      cases hd : (t.mem (CachePtr.user k)).getDirty with
      | false =>
        simp only [Bool.false_eq_true, if_false]
        rw [submitCache_eq hq]
        refine ⟨_, [i], rfl, rfl, rfl, rfl, List.nodup_singleton i, ?_⟩
        intro m hm
        rw [List.mem_singleton.1 hm]
        exact AncOrSelf.refl i
      | true =>
        simp only [if_true]
        rw [@submitToBack_eq (t.beginCaching (CachePtr.user k)) (CachePtr.user k) t.cacheQueue
          rfl nd.id]
        simp only
        obtain ⟨t2, vs, hrun, hn2, hr2, hq2, hnodup, hsub⟩ :=
          hloop { t.beginCaching (CachePtr.user k) with
              mem := Function.update (t.beginCaching (CachePtr.user k)).mem (CachePtr.user k)
                (((t.beginCaching (CachePtr.user k)).mem (CachePtr.user k)).submitNode nd.id) }
            (CachePtr.user k) t.cacheQueue rfl rfl
        rw [hrun]
        simp only
        rw [endCaching_eq hq2]
        simp only
        have h3 : ∀ t3 : Tree, t3.cacheQueue = t.cacheQueue →
            ∃ t4, t3.submitCache (CachePtr.user k) = some t4 ∧ t4.nodeData = t3.nodeData ∧
              t4.root = t3.root ∧ t4.cacheQueue = t3.cacheQueue := by
          intro t3 h
          rw [submitCache_eq (h.trans hq)]
          exact ⟨_, rfl, rfl, rfl, rfl⟩
        obtain ⟨t4, h4, h4n, h4r, h4q⟩ := h3
          { t2 with
            mem := Function.update t2.mem (CachePtr.user k)
              (t2.mem (CachePtr.user k)).finishCaching
            cacheQueue := t.cacheQueue } rfl
        rw [h4]
        exact ⟨t4, i :: vs, rfl, h4n.trans hn2, h4r.trans hr2, h4q, hnodup, hsub⟩

/-- On a well-formed arena and a non-empty stack `Tree::submitNode` returns when the
fuel covers the distance from the node to the end of the arena, and it keeps the arena,
the root and the stack. -/
theorem submitNode_total (fuel : Nat) (t : Tree) (i : Nat) (top : CachePtr)
    (rest : List CachePtr) (hwf : ArenaWF t.nodeData) (hq : t.cacheQueue = top :: rest)
    (hi : i < t.nodeData.length) (hf : t.nodeData.length - i ≤ fuel) :
    ∃ t1, t.submitNode fuel i = some t1 ∧ t1.nodeData = t.nodeData ∧ t1.root = t.root ∧
      t1.cacheQueue = t.cacheQueue := by
  obtain ⟨t1, vs, hrun, hn, hr, hq1, _, _⟩ := submitNodeVisits_spec fuel t i top rest hwf hq hi hf
  refine ⟨t1, ?_, hn, hr, hq1⟩
  rw [← submitNodeVisits_fst, hrun]
  rfl

/-! ## States reachable by the public operations -/

theorem reset_arena_wf (t : Tree) : ArenaWF t.reset.nodeData := new_arena_wf

/-- The method `submitOrderedTreeNodes` on a well-formed arena with root 0: it returns
and keeps the arena, the root and the stack, whatever caches are attached. -/
theorem submitOrdered_total (t : Tree) (hwf : ArenaWF t.nodeData) (hroot : t.root = 0) :
    ∃ t1 vs t2,
      submitNodeVisits t.nodeData.length (t.beginCaching CachePtr.final) t.root = some (t1, vs) ∧
      Tree.submitNode t.nodeData.length (t.beginCaching CachePtr.final) t.root = some t1 ∧
      vs.Nodup ∧
      t.submitOrderedTreeNodes = some t2 ∧ t2.nodeData = t.nodeData ∧ t2.root = t.root ∧
      t2.cacheQueue = t.cacheQueue := by
  have hq0 : (t.beginCaching CachePtr.final).cacheQueue = CachePtr.final :: t.cacheQueue := rfl
  obtain ⟨t1, vs, hrun, hn1, hr1, hq1, hnodup, _⟩ :=
    submitNodeVisits_spec t.nodeData.length (t.beginCaching CachePtr.final) t.root
      CachePtr.final t.cacheQueue hwf hq0 (by rw [hroot]; exact hwf.nonempty) (Nat.sub_le _ _)
  have hplain : Tree.submitNode t.nodeData.length (t.beginCaching CachePtr.final) t.root
      = some t1 := by
    rw [← submitNodeVisits_fst, hrun]
    rfl
  obtain ⟨t2, hend, hn2, hr2, hq2⟩ : ∃ t2, t1.endCaching CachePtr.final = some t2 ∧
      t2.nodeData = t1.nodeData ∧ t2.root = t1.root ∧ t2.cacheQueue = t.cacheQueue :=
    ⟨_, endCaching_eq (hq1.trans hq0) CachePtr.final, rfl, rfl, rfl⟩
  refine ⟨t1, vs, t2, hrun, hplain, hnodup, ?_, hn2.trans hn1, hr2.trans hr1, hq2⟩
  unfold Tree.submitOrderedTreeNodes
  rw [hplain]
  exact hend

theorem insertTreeNode_wf {t t1 : Tree} (hwf : ArenaWF t.nodeData) (parentId : Int)
    (hrun : t.insertTreeNode parentId = some t1) :
    ArenaWF t1.nodeData ∧ t1.root = t.root ∧ t1.cacheQueue = t.cacheQueue := by
  obtain ⟨p, ndp, m1, _, hndp, heq, _, _⟩ := insertTreeNode_eq t hwf parentId
  rw [heq] at hrun
  cases hrun
  exact ⟨growArena_wf hwf hndp, rfl, rfl⟩

theorem attachCache_wf {t t1 : Tree} (hwf : ArenaWF t.nodeData) (nodeId : Int) (k : Nat)
    (hrun : t.attachCache nodeId k = some t1) :
    ArenaWF t1.nodeData ∧ t1.root = t.root ∧ t1.cacheQueue = t.cacheQueue := by
  obtain ⟨i, nd, m1, _, hnd, heq, _, _⟩ := attachCache_eq t hwf nodeId k
  rw [heq] at hrun
  cases hrun
  exact ⟨set_cache_wf hwf k hnd, rfl, rfl⟩

/-- Between two public operations the state is well formed: the arena is a tree, the
root is node 0 and the stack is empty. -/
theorem PublicReachable.wf {t : Tree} (h : PublicReachable t) : t.WF := by
  induction h with
  | new => exact ⟨new_arena_wf, rfl, rfl⟩
  | insert parentId _ hrun ih =>
    obtain ⟨ha, hr, hq⟩ := insertTreeNode_wf ih.arena parentId hrun
    exact ⟨ha, hr.trans ih.root_eq, hq.trans ih.queue_empty⟩
  | attach nodeId k _ hrun ih =>
    obtain ⟨ha, hr, hq⟩ := attachCache_wf ih.arena nodeId k hrun
    exact ⟨ha, hr.trans ih.root_eq, hq.trans ih.queue_empty⟩
  | submit _ hrun ih =>
    obtain ⟨_, _, t2, _, _, _, hrun2, hn, hr, hq⟩ := submitOrdered_total _ ih.arena ih.root_eq
    rw [hrun] at hrun2
    cases hrun2
    exact ⟨hn ▸ ih.arena, hr.trans ih.root_eq, hq.trans ih.queue_empty⟩
  | reset _ ih => exact ⟨reset_arena_wf _, rfl, ih.queue_empty⟩

/-- After edits of a new or reset tree the arena is a tree with root 0. -/
theorem EditReachable.arena_wf {t : Tree} (h : EditReachable t) :
    ArenaWF t.nodeData ∧ t.root = 0 := by
  induction h with
  | new => exact ⟨new_arena_wf, rfl⟩
  | reset t => exact ⟨reset_arena_wf t, rfl⟩
  | insert parentId _ hrun ih =>
    obtain ⟨ha, hr, _⟩ := insertTreeNode_wf ih.1 parentId hrun
    exact ⟨ha, hr.trans ih.2⟩
  | attach nodeId k _ hrun ih =>
    obtain ⟨ha, hr, _⟩ := attachCache_wf ih.1 nodeId k hrun
    exact ⟨ha, hr.trans ih.2⟩

theorem chain4_editReachable : EditReachable chain4 :=
  EditReachable.attach 0 1
    (EditReachable.attach 1 0
      (EditReachable.insert 1
        (EditReachable.insert 0 EditReachable.new
          (rfl : Tree.new.insertTreeNode 0 = some chain1))
        (rfl : chain1.insertTreeNode 1 = some chain2))
      (rfl : chain2.attachCache 1 0 = some chain3))
    (rfl : chain3.attachCache 0 1 = some chain4)

theorem chain5_publicReachable : PublicReachable chain5 :=
  PublicReachable.submit
    (PublicReachable.attach 0 1
      (PublicReachable.attach 1 0
        (PublicReachable.insert 1
          (PublicReachable.insert 0 PublicReachable.new
            (rfl : Tree.new.insertTreeNode 0 = some chain1))
          (rfl : chain1.insertTreeNode 1 = some chain2))
        (rfl : chain2.attachCache 1 0 = some chain3))
      (rfl : chain3.attachCache 0 1 = some chain4))
    (rfl : chain4.submitOrderedTreeNodes = some chain5)

/-- Claim C11 (reset).  After `Tree::reset()` on any state the arena holds exactly one
node, the root, with id 0, no parent, no children and no cache, so that no cache is
attached any more, and the memory of the caches is untouched; the traversal then returns
and yields `[0]`, and the next `insertTreeNode`, whatever its argument, creates the node
with id 1 under the root. -/
theorem reset_gives_single_root (t : Tree) :
    t.reset.nodeData = [⟨0, none, [], none⟩] ∧ t.reset.root = 0 ∧
    (∀ k, isAttached t.reset.nodeData k = false) ∧
    t.reset.mem = t.mem ∧
    (∃ t1, t.reset.submitOrderedTreeNodes = some t1 ∧
      t1.finalCache.getCachedData = [0] ∧ t1.nodeData = t.reset.nodeData) ∧
    ∀ parentId : Int, ∃ t2, t.reset.insertTreeNode parentId = some t2 ∧
      t2.nodeData = [⟨0, none, [1], none⟩, ⟨1, some 0, [], none⟩] := by
  refine ⟨rfl, rfl, fun k => rfl, rfl, ⟨_, rfl, rfl, rfl⟩, ?_⟩
  intro parentId
  obtain ⟨p, ndp, m1, _, hndp, heq, _, _⟩ :=
    insertTreeNode_eq t.reset (reset_arena_wf t) parentId
  have hp : p = 0 := by
    have hlt : p < t.reset.nodeData.length := (List.getElem?_eq_some.1 hndp).1
    have hlen : t.reset.nodeData.length = 1 := rfl
    omega
  subst hp
  have hnd : ndp = Node.new := (Option.some.inj hndp).symm
  subst hnd
  exact ⟨_, heq, rfl⟩

/-- Claim C12 (`Cache::submitList`).  After `a->submitList(b)` with `b` another cache the
data of `a` is its old data followed by the data of `b`, the dirty flag of `a` is
unchanged, `b` is unchanged, and the result does not depend on the dirty flag of `b`. -/
theorem submitList_appends (mem : CachePtr → Cache) (a b : CachePtr) (hab : b ≠ a) :
    (submitListAt mem a b a).cacheData = (mem a).cacheData ++ (mem b).cacheData ∧
    (submitListAt mem a b a).dirty = (mem a).dirty ∧
    submitListAt mem a b b = mem b ∧
    (∀ d, (mem a).submitList { mem b with dirty := d } = (mem a).submitList (mem b)) ∧
    ∀ x y : Cache, (x.submitList y).cacheData = x.cacheData ++ y.cacheData ∧
      (x.submitList y).dirty = x.dirty := by
  refine ⟨?_, ?_, ?_, fun d => rfl, fun x y => ⟨rfl, rfl⟩⟩
  · simp [submitListAt, Cache.submitList, Cache.getCachedData]
  · simp [submitListAt, Cache.submitList]
  · simp [submitListAt, Function.update_noteq hab]

theorem submitList_appends_witness :
    CachePtr.user 0 ≠ CachePtr.final ∧
    ((submitListAt chain5.mem CachePtr.final (CachePtr.user 0) CachePtr.final).cacheData
        = (chain5.mem CachePtr.final).cacheData ++ (chain5.mem (CachePtr.user 0)).cacheData ∧
      (submitListAt chain5.mem CachePtr.final (CachePtr.user 0) CachePtr.final).dirty
        = (chain5.mem CachePtr.final).dirty ∧
      submitListAt chain5.mem CachePtr.final (CachePtr.user 0) (CachePtr.user 0)
        = chain5.mem (CachePtr.user 0) ∧
      (∀ d, (chain5.mem CachePtr.final).submitList { chain5.mem (CachePtr.user 0) with dirty := d }
        = (chain5.mem CachePtr.final).submitList (chain5.mem (CachePtr.user 0))) ∧
      ∀ x y : Cache, (x.submitList y).cacheData = x.cacheData ++ y.cacheData ∧
        (x.submitList y).dirty = x.dirty) :=
  ⟨by decide, submitList_appends chain5.mem CachePtr.final (CachePtr.user 0) (by decide)⟩

/-- Claim C13 (flag and entries of a cache are separate).  A newly constructed cache is
dirty with no data; `reset` empties the data and keeps the flag; `markDirty` sets the flag
and `finishCaching` clears it, both keeping the data; `submitNode(id)` appends `id` as
the last entry and keeps the flag. -/
theorem cache_flag_and_entries_separate (c : Cache) (id : Int) :
    Cache.new.getDirty = true ∧ Cache.new.getCachedData = [] ∧
    c.reset.getCachedData = [] ∧ c.reset.getDirty = c.getDirty ∧
    c.markDirty.getDirty = true ∧ c.markDirty.getCachedData = c.getCachedData ∧
    c.finishCaching.getDirty = false ∧ c.finishCaching.getCachedData = c.getCachedData ∧
    (c.submitNode id).getCachedData = c.getCachedData ++ [id] ∧
    (c.submitNode id).getDirty = c.getDirty :=
  ⟨rfl, rfl, rfl, rfl, rfl, rfl, rfl, rfl, rfl, rfl⟩

/-- Claim C14 (clean-cache step).  With a non-empty stack, `Tree::submitNode` on a node
whose attached cache `k` is clean and is not the top of the stack returns, whatever the
fuel left for recursive calls; it visits no node but this one; the arena, the root and
the stack are unchanged; the top of the stack keeps its flag and gets the data of `k`
appended; every other cache, `k` and the caches of the subtree included, is unchanged. -/
theorem clean_cache_step (t : Tree) (fuel i k : Nat) (nd : Node) (top : CachePtr)
    (rest : List CachePtr) (hq : t.cacheQueue = top :: rest)
    (hnd : t.nodeData[i]? = some nd) (hsc : nd.subtreeCache = some k)
    (hclean : (t.mem (CachePtr.user k)).getDirty = false) (hne : CachePtr.user k ≠ top) :
    ∃ t1, t.submitNode (fuel + 1) i = some t1 ∧
      submitNodeVisits (fuel + 1) t i = some (t1, [i]) ∧
      t1.nodeData = t.nodeData ∧ t1.root = t.root ∧ t1.cacheQueue = t.cacheQueue ∧
      (t1.mem top).cacheData = (t.mem top).cacheData ++ (t.mem (CachePtr.user k)).cacheData ∧
      (t1.mem top).dirty = (t.mem top).dirty ∧
      (∀ q, q ≠ top → t1.mem q = t.mem q) ∧
      t1.mem (CachePtr.user k) = t.mem (CachePtr.user k) := by
  obtain ⟨t1, ht1⟩ : ∃ t1 : Tree, t1 =
      { t with
        mem := Function.update t.mem top ((t.mem top).submitList (t.mem (CachePtr.user k))) } :=
    ⟨_, rfl⟩
  refine ⟨t1, ?_, ?_, ?_, ?_, ?_, ?_, ?_, ?_, ?_⟩
  · rw [Tree.submitNode, hnd]
    simp only [hsc, hclean, Bool.false_eq_true, if_false]
    rw [ht1]
    exact submitCache_eq hq _
  · rw [submitNodeVisits, hnd]
    simp only [hsc, hclean, Bool.false_eq_true, if_false]
    rw [submitCache_eq hq, ht1]
  · rw [ht1]
  · rw [ht1]
  · rw [ht1]
  · rw [ht1]
    simp [Cache.submitList, Cache.getCachedData]
  · rw [ht1]
    simp [Cache.submitList]
  · intro q hq1
    rw [ht1]
    exact Function.update_noteq hq1 _ _
  · rw [ht1]
    exact Function.update_noteq hne _ _

theorem clean_cache_step_witness :
    (chain5.beginCaching CachePtr.final).cacheQueue = CachePtr.final :: [] ∧
    (chain5.beginCaching CachePtr.final).nodeData[1]? = some ⟨1, some 0, [2], some 0⟩ ∧
    ((chain5.beginCaching CachePtr.final).mem (CachePtr.user 0)).getDirty = false ∧
    CachePtr.user 0 ≠ CachePtr.final ∧
    ∃ t1, (chain5.beginCaching CachePtr.final).submitNode (0 + 1) 1 = some t1 ∧
      submitNodeVisits (0 + 1) (chain5.beginCaching CachePtr.final) 1 = some (t1, [1]) ∧
      t1.nodeData = (chain5.beginCaching CachePtr.final).nodeData ∧
      t1.root = (chain5.beginCaching CachePtr.final).root ∧
      t1.cacheQueue = (chain5.beginCaching CachePtr.final).cacheQueue ∧
      (t1.mem CachePtr.final).cacheData
        = ((chain5.beginCaching CachePtr.final).mem CachePtr.final).cacheData
          ++ ((chain5.beginCaching CachePtr.final).mem (CachePtr.user 0)).cacheData ∧
      (t1.mem CachePtr.final).dirty
        = ((chain5.beginCaching CachePtr.final).mem CachePtr.final).dirty ∧
      (∀ q, q ≠ CachePtr.final → t1.mem q = (chain5.beginCaching CachePtr.final).mem q) ∧
      t1.mem (CachePtr.user 0) = (chain5.beginCaching CachePtr.final).mem (CachePtr.user 0) :=
  ⟨rfl, rfl, rfl, by decide,
    clean_cache_step (chain5.beginCaching CachePtr.final) 0 1 0 ⟨1, some 0, [2], some 0⟩
      CachePtr.final [] rfl rfl rfl rfl (by decide)⟩

/-- Claim C15 (stack discipline).  In every state reachable by the public operations
`cacheQueue` is empty, and each public operation returns with `cacheQueue` empty again.
During a traversal, a call of `Tree::submitNode` on any node of the arena, from any
state over that arena whose stack is not empty, returns with the stack as it found it; a
call that returns has made all its `back()` and `pop_back()` accesses on a non-empty
stack, since the embedding fails on an access to an empty one. -/
theorem stack_discipline (t : Tree) (h : PublicReachable t) :
    t.cacheQueue = [] ∧
    (∃ t1, t.submitOrderedTreeNodes = some t1 ∧ t1.cacheQueue = []) ∧
    (∀ parentId, ∃ t1, t.insertTreeNode parentId = some t1 ∧ t1.cacheQueue = []) ∧
    (∀ nodeId k, ∃ t1, t.attachCache nodeId k = some t1 ∧ t1.cacheQueue = []) ∧
    t.reset.cacheQueue = [] ∧
    (∀ (s : Tree) (top : CachePtr) (rest : List CachePtr) (i fuel : Nat),
      s.nodeData = t.nodeData → s.cacheQueue = top :: rest → i < t.nodeData.length →
      t.nodeData.length - i ≤ fuel →
      ∃ s1, s.submitNode fuel i = some s1 ∧ s1.cacheQueue = top :: rest) ∧
    ∀ (s : Tree) (id : Int) (c : CachePtr), s.cacheQueue = [] →
      s.submitToBack id = none ∧ s.submitCache c = none ∧ s.endCaching c = none := by
  have hwf := h.wf
  refine ⟨hwf.queue_empty, ?_, ?_, ?_, hwf.queue_empty, ?_, ?_⟩
  · obtain ⟨_, _, t2, _, _, _, hrun, _, _, hq⟩ := submitOrdered_total t hwf.arena hwf.root_eq
    exact ⟨t2, hrun, hq.trans hwf.queue_empty⟩
  · intro parentId
    obtain ⟨p, ndp, m1, _, _, heq, _, _⟩ := insertTreeNode_eq t hwf.arena parentId
    exact ⟨_, heq, hwf.queue_empty⟩
  · intro nodeId k
    obtain ⟨i, nd, m1, _, _, heq, _, _⟩ := attachCache_eq t hwf.arena nodeId k
    exact ⟨_, heq, hwf.queue_empty⟩
  · intro s top rest i fuel hn hq hi hf
    obtain ⟨s1, hrun, _, _, hq1⟩ := submitNode_total fuel s i top rest (hn ▸ hwf.arena) hq
      (hn ▸ hi) (hn ▸ hf)
    exact ⟨s1, hrun, hq1.trans hq⟩
  · intro s id c hs
    refine ⟨?_, ?_, ?_⟩
    · unfold Tree.submitToBack; rw [hs]
    · unfold Tree.submitCache; rw [hs]
    · unfold Tree.endCaching; rw [hs]

theorem stack_discipline_witness :
    PublicReachable chain5 ∧
    (chain5.cacheQueue = [] ∧
    (∃ t1, chain5.submitOrderedTreeNodes = some t1 ∧ t1.cacheQueue = []) ∧
    (∀ parentId, ∃ t1, chain5.insertTreeNode parentId = some t1 ∧ t1.cacheQueue = []) ∧
    (∀ nodeId k, ∃ t1, chain5.attachCache nodeId k = some t1 ∧ t1.cacheQueue = []) ∧
    chain5.reset.cacheQueue = [] ∧
    (∀ (s : Tree) (top : CachePtr) (rest : List CachePtr) (i fuel : Nat),
      s.nodeData = chain5.nodeData → s.cacheQueue = top :: rest →
      i < chain5.nodeData.length → chain5.nodeData.length - i ≤ fuel →
      ∃ s1, s.submitNode fuel i = some s1 ∧ s1.cacheQueue = top :: rest) ∧
    ∀ (s : Tree) (id : Int) (c : CachePtr), s.cacheQueue = [] →
      s.submitToBack id = none ∧ s.submitCache c = none ∧ s.endCaching c = none) :=
  ⟨chain5_publicReachable, stack_discipline chain5 chain5_publicReachable⟩

theorem growArena_ancestor_new {nodes : List Node} (h : ArenaWF nodes) {p : Nat} {ndp : Node}
    (hp : nodes[p]? = some ndp) (a : Nat) :
    Ancestor (growArena nodes p ndp) a nodes.length ↔ AncOrSelf nodes a p := by
  have hlt : p < nodes.length := (List.getElem?_eq_some.1 hp).1
  constructor
  · rintro ⟨q, hq, haq⟩
    rw [growArena_parentOf hp, if_pos rfl] at hq
    cases hq
    exact (growArena_ancOrSelf h hp hlt).1 haq
  · intro ha
    exact ⟨p, by rw [growArena_parentOf hp, if_pos rfl], (growArena_ancOrSelf h hp hlt).2 ha⟩

theorem set_cache_ancestor {nodes : List Node} {i : Nat} {nd : Node}
    (k : Nat) (hi : nodes[i]? = some nd) (a : Nat) :
    Ancestor (nodes.set i { nd with subtreeCache := some k }) a i ↔ Ancestor nodes a i := by
  constructor
  · rintro ⟨q, hq, haq⟩
    exact ⟨q, (set_cache_parentOf k hi i) ▸ hq, (set_cache_ancOrSelf k hi).1 haq⟩
  · rintro ⟨q, hq, haq⟩
    exact ⟨q, (set_cache_parentOf k hi i).symm ▸ hq, (set_cache_ancOrSelf k hi).2 haq⟩

theorem flag_eq_of_iff {x y : Bool} {P : Prop} (h : x = true ↔ (y = true ∨ P)) (hP : ¬ P) :
    x = y := by
  cases x <;> cases y <;> simp_all

/-- Claim C16 (well-formedness of the tree).  In every state reached from a new or reset
tree by `insertTreeNode` and `attachCache` the arena is not empty and its root is node 0;
the node at index `i` has id `i`; the root has no parent; every other node has a parent
of smaller index; the children of a node are arena nodes; a node occurs exactly once in
the child list of its parent and not at all in any other child list; and following
parent pointers from any node reaches the root. -/
theorem arena_is_a_tree (t : Tree) (h : EditReachable t) :
    0 < t.nodeData.length ∧ t.root = 0 ∧
    (∀ (i : Nat) (nd : Node), t.nodeData[i]? = some nd → nd.id = (i : Int)) ∧
    parentOf t.nodeData 0 = none ∧
    (∀ i, 0 < i → i < t.nodeData.length → ∃ p, parentOf t.nodeData i = some p ∧ p < i) ∧
    (∀ (p : Nat) (nd : Node) (c : Nat), t.nodeData[p]? = some nd → c ∈ nd.children →
      c < t.nodeData.length) ∧
    (∀ (p : Nat) (nd : Node) (c : Nat), t.nodeData[p]? = some nd → c < t.nodeData.length →
      nd.children.count c = if parentOf t.nodeData c = some p then 1 else 0) ∧
    ∀ m, m < t.nodeData.length → AncOrSelf t.nodeData 0 m := by
  obtain ⟨hwf, hroot⟩ := h.arena_wf
  refine ⟨hwf.nonempty, hroot, hwf.id_eq, hwf.root_parent, hwf.parent_lt, hwf.child_lt, ?_,
    hwf.root_anc⟩
  intro p nd c hnd hc
  by_cases hpar : parentOf t.nodeData c = some p
  · rw [if_pos hpar]
    exact List.count_eq_one_of_mem (hwf.child_nodup p nd hnd)
      ((hwf.child_iff p nd c hnd hc).2 hpar)
  · rw [if_neg hpar]
    exact List.count_eq_zero_of_not_mem (fun hmem => hpar ((hwf.child_iff p nd c hnd hc).1 hmem))

theorem arena_is_a_tree_witness :
    EditReachable chain4 ∧
    (0 < chain4.nodeData.length ∧ chain4.root = 0 ∧
    (∀ (i : Nat) (nd : Node), chain4.nodeData[i]? = some nd → nd.id = (i : Int)) ∧
    parentOf chain4.nodeData 0 = none ∧
    (∀ i, 0 < i → i < chain4.nodeData.length →
      ∃ p, parentOf chain4.nodeData i = some p ∧ p < i) ∧
    (∀ (p : Nat) (nd : Node) (c : Nat), chain4.nodeData[p]? = some nd → c ∈ nd.children →
      c < chain4.nodeData.length) ∧
    (∀ (p : Nat) (nd : Node) (c : Nat), chain4.nodeData[p]? = some nd →
      c < chain4.nodeData.length →
      nd.children.count c = if parentOf chain4.nodeData c = some p then 1 else 0) ∧
    ∀ m, m < chain4.nodeData.length → AncOrSelf chain4.nodeData 0 m) :=
  ⟨chain4_editReachable, arena_is_a_tree chain4 chain4_editReachable⟩

/-- Claim C17 (dirtiness is upward closed).  In every state reachable under the caller
contract, above a dirty attached cache every attached cache is dirty; so below a clean
attached cache every attached cache is clean and holds the preorder of its node. -/
theorem dirtiness_upward_closed (t : Tree) (h : Reachable t) :
    (∀ a m ka km, AncOrSelf t.nodeData a m → cacheAt t.nodeData a = some ka →
      cacheAt t.nodeData m = some km → (t.mem (CachePtr.user km)).dirty = true →
      (t.mem (CachePtr.user ka)).dirty = true) ∧
    (∀ a m ka km, AncOrSelf t.nodeData a m → cacheAt t.nodeData a = some ka →
      cacheAt t.nodeData m = some km → (t.mem (CachePtr.user ka)).dirty = false →
      (t.mem (CachePtr.user km)).dirty = false ∧
      (t.mem (CachePtr.user km)).cacheData = preorder t.nodeData m) := by
  have hinv := Reachable.inv h
  refine ⟨hinv.upClosed, ?_⟩
  intro a m ka km ham hca hcm hclean
  have hkm : (t.mem (CachePtr.user km)).dirty = false := by
    cases hd : (t.mem (CachePtr.user km)).dirty with
    | false => rfl
    | true =>
      rw [hinv.upClosed a m ka km ham hca hcm hd] at hclean
      exact absurd hclean (by simp)
  exact ⟨hkm, hinv.valid m km hcm hkm⟩

theorem dirtiness_upward_closed_witness :
    Reachable chain4 ∧
    ((∀ a m ka km, AncOrSelf chain4.nodeData a m → cacheAt chain4.nodeData a = some ka →
      cacheAt chain4.nodeData m = some km → (chain4.mem (CachePtr.user km)).dirty = true →
      (chain4.mem (CachePtr.user ka)).dirty = true) ∧
    (∀ a m ka km, AncOrSelf chain4.nodeData a m → cacheAt chain4.nodeData a = some ka →
      cacheAt chain4.nodeData m = some km → (chain4.mem (CachePtr.user ka)).dirty = false →
      (chain4.mem (CachePtr.user km)).dirty = false ∧
      (chain4.mem (CachePtr.user km)).cacheData = preorder chain4.nodeData m)) :=
  ⟨chain4_reachable, dirtiness_upward_closed chain4 chain4_reachable⟩

/-- Claim C18 (mutations never rebuild or clean a cache).  On a well-formed arena
`insertTreeNode` and `attachCache` return; they leave the data of every cache unchanged
and turn no dirty flag from true to false; `insertTreeNode` leaves unchanged the flag of
every cache that is not attached to an ancestor of the inserted node, `attachCache` the
flag of every cache that is not attached to a strict ancestor of the node receiving the
cache; in particular the cache handed to `attachCache` is unchanged unless it is also
attached to such an ancestor. -/
theorem mutations_never_clean (t : Tree) (hwf : ArenaWF t.nodeData) (arg : Int) (c : Nat) :
    (∃ t1, t.insertTreeNode arg = some t1 ∧
      (∀ q, (t1.mem q).cacheData = (t.mem q).cacheData) ∧
      (∀ q, (t.mem q).dirty = true → (t1.mem q).dirty = true) ∧
      (∀ q, (¬ ∃ a k, Ancestor t1.nodeData a t.nodeData.length ∧
          cacheAt t1.nodeData a = some k ∧ q = CachePtr.user k) →
        (t1.mem q).dirty = (t.mem q).dirty)) ∧
    (∃ (t1 : Tree) (i : Nat), t.attachCache arg c = some t1 ∧
      (i : Int) = min (max arg 0) ((t.nodeData.length : Int) - 1) ∧
      (∀ q, (t1.mem q).cacheData = (t.mem q).cacheData) ∧
      (∀ q, (t.mem q).dirty = true → (t1.mem q).dirty = true) ∧
      (∀ q, (¬ ∃ a k, Ancestor t1.nodeData a i ∧
          cacheAt t1.nodeData a = some k ∧ q = CachePtr.user k) →
        (t1.mem q).dirty = (t.mem q).dirty) ∧
      ((¬ ∃ a, Ancestor t1.nodeData a i ∧ cacheAt t1.nodeData a = some c) →
        t1.mem (CachePtr.user c) = t.mem (CachePtr.user c))) := by
  constructor
  · obtain ⟨p, ndp, m1, _, hndp, heq, hdata, hflag⟩ := insertTreeNode_eq t hwf arg
    refine ⟨_, heq, hdata, fun q hq => (hflag q).2 (Or.inl hq), ?_⟩
    intro q hnot
    refine flag_eq_of_iff (hflag q) ?_
    rintro ⟨a, k, ha, hk, hqk⟩
    refine hnot ⟨a, k, ?_, ?_, hqk⟩
    · exact (growArena_ancestor_new hwf hndp a).2 ha
    · show cacheAt (growArena t.nodeData p ndp) a = some k
      rw [growArena_cacheAt hndp]
      exact hk
  · obtain ⟨i, nd, m1, hi, hnd, heq, hdata, hflag⟩ := attachCache_eq t hwf arg c
    have hback : ∀ a k1, Ancestor t.nodeData a i → cacheAt t.nodeData a = some k1 →
        Ancestor (t.nodeData.set i { nd with subtreeCache := some c }) a i ∧
        cacheAt (t.nodeData.set i { nd with subtreeCache := some c }) a = some k1 := by
      intro a k1 ha hk
      refine ⟨(set_cache_ancestor c hnd a).2 ha, ?_⟩
      have hne : a ≠ i := by
        obtain ⟨q, hq, haq⟩ := ha
        have h1 := hwf.parentOf_lt hq
        have h2 := AncOrSelf.le hwf haq
        omega
      rw [set_cache_cacheAt c hnd, if_neg hne]
      exact hk
    have hframe : ∀ q, (¬ ∃ a k,
        Ancestor (t.nodeData.set i { nd with subtreeCache := some c }) a i ∧
        cacheAt (t.nodeData.set i { nd with subtreeCache := some c }) a = some k ∧
        q = CachePtr.user k) → (m1 q).dirty = (t.mem q).dirty := by
      intro q hnot
      refine flag_eq_of_iff (hflag q) ?_
      rintro ⟨a, k, ha, hk, hqk⟩
      obtain ⟨ha2, hk2⟩ := hback a k ha hk
      exact hnot ⟨a, k, ha2, hk2, hqk⟩
    refine ⟨_, i, heq, hi.trans (clampId_eq_min_max t hwf.nonempty arg), hdata,
      fun q hq => (hflag q).2 (Or.inl hq), hframe, ?_⟩
    intro hnot
    refine Cache.ext_fields (hframe _ ?_) (hdata _)
    rintro ⟨a, k, ha, hk, hqk⟩
    have hck : c = k := CachePtr.user.inj hqk
    rw [← hck] at hk
    exact hnot ⟨a, ha, hk⟩

theorem mutations_never_clean_witness :
    ArenaWF chain5.nodeData ∧
    ((∃ t1, chain5.insertTreeNode 1 = some t1 ∧
      (∀ q, (t1.mem q).cacheData = (chain5.mem q).cacheData) ∧
      (∀ q, (chain5.mem q).dirty = true → (t1.mem q).dirty = true) ∧
      (∀ q, (¬ ∃ a k, Ancestor t1.nodeData a chain5.nodeData.length ∧
          cacheAt t1.nodeData a = some k ∧ q = CachePtr.user k) →
        (t1.mem q).dirty = (chain5.mem q).dirty)) ∧
    (∃ (t1 : Tree) (i : Nat), chain5.attachCache 1 2 = some t1 ∧
      (i : Int) = min (max 1 0) ((chain5.nodeData.length : Int) - 1) ∧
      (∀ q, (t1.mem q).cacheData = (chain5.mem q).cacheData) ∧
      (∀ q, (chain5.mem q).dirty = true → (t1.mem q).dirty = true) ∧
      (∀ q, (¬ ∃ a k, Ancestor t1.nodeData a i ∧
          cacheAt t1.nodeData a = some k ∧ q = CachePtr.user k) →
        (t1.mem q).dirty = (chain5.mem q).dirty) ∧
      ((¬ ∃ a, Ancestor t1.nodeData a i ∧ cacheAt t1.nodeData a = some 2) →
        t1.mem (CachePtr.user 2) = chain5.mem (CachePtr.user 2)))) :=
  ⟨(Reachable.inv chain5_reachable).wf.arena,
    mutations_never_clean chain5 (Reachable.inv chain5_reachable).wf.arena 1 2⟩

/-- Claim C19 (arena indexing is in bounds).  In every state reachable by the public
operations the arena has `n >= 1` nodes, and for every integer argument the index that
`insertTreeNode` and `attachCache` compute equals `min(max(arg, 0), n-1)` and lies
between 0 and `n-1`; a node is stored there, and both operations return. -/
theorem arena_index_in_bounds (t : Tree) (h : PublicReachable t) (arg : Int) :
    1 ≤ t.nodeData.length ∧
    t.clampId arg = min (max arg 0) ((t.nodeData.length : Int) - 1) ∧
    0 ≤ t.clampId arg ∧ t.clampId arg ≤ (t.nodeData.length : Int) - 1 ∧
    (∃ nd, t.nodeData[(t.clampId arg).toNat]? = some nd) ∧
    (∃ t1, t.insertTreeNode arg = some t1) ∧
    ∀ k, ∃ t1, t.attachCache arg k = some t1 := by
  have hwf := h.wf.arena
  have hn := hwf.nonempty
  obtain ⟨_, hlt⟩ := clampId_toNat t hn arg
  refine ⟨hn, clampId_eq_min_max t hn arg, ?_, ?_, ?_, ?_, ?_⟩
  · unfold Tree.clampId; omega
  · unfold Tree.clampId; omega
  · exact ⟨_, List.getElem?_eq_getElem hlt⟩
  · obtain ⟨p, ndp, m1, _, _, heq, _, _⟩ := insertTreeNode_eq t hwf arg
    exact ⟨_, heq⟩
  · intro k
    obtain ⟨i, nd, m1, _, _, heq, _, _⟩ := attachCache_eq t hwf arg k
    exact ⟨_, heq⟩

theorem arena_index_in_bounds_witness :
    PublicReachable chain5 ∧
    (1 ≤ chain5.nodeData.length ∧
    chain5.clampId 999 = min (max 999 0) ((chain5.nodeData.length : Int) - 1) ∧
    0 ≤ chain5.clampId 999 ∧ chain5.clampId 999 ≤ (chain5.nodeData.length : Int) - 1 ∧
    (∃ nd, chain5.nodeData[(chain5.clampId 999).toNat]? = some nd) ∧
    (∃ t1, chain5.insertTreeNode 999 = some t1) ∧
    ∀ k, ∃ t1, chain5.attachCache 999 k = some t1) :=
  ⟨chain5_publicReachable, arena_index_in_bounds chain5 chain5_publicReachable 999⟩

/-- Claim C20 (totality of the walks).  In every state reached from a new or reset tree
by `insertTreeNode` and `attachCache`: parent indices strictly decrease, and the walk of
`Node::markDirty` from any node of the arena returns; child indices strictly exceed the
index of their parent, and the traversal `Tree::submitNode` started at the root by
`submitOrderedTreeNodes` returns with fuel equal to the number of nodes, the list of the
nodes it was called on holding no node twice. -/
theorem walks_terminate (t : Tree) (h : EditReachable t) :
    (∀ i p, parentOf t.nodeData i = some p → p < i) ∧
    (∀ c, c < t.nodeData.length → ∃ t1, t.markDirty c = some t1) ∧
    (∀ (p : Nat) (nd : Node) (c : Nat), t.nodeData[p]? = some nd → c ∈ nd.children → p < c) ∧
    ∃ t1 vs t2,
      submitNodeVisits t.nodeData.length (t.beginCaching CachePtr.final) t.root = some (t1, vs) ∧
      Tree.submitNode t.nodeData.length (t.beginCaching CachePtr.final) t.root = some t1 ∧
      vs.Nodup ∧ t.submitOrderedTreeNodes = some t2 := by
  obtain ⟨hwf, hroot⟩ := h.arena_wf
  refine ⟨fun i p hp => hwf.parentOf_lt hp, ?_, fun p nd c hnd hc => hwf.child_gt hnd hc, ?_⟩
  · intro c hc
    obtain ⟨m1, hrun, _, _⟩ := markDirty_spec t (fun i p hp => hwf.parentOf_lt hp) c hc
    exact ⟨_, hrun⟩
  · obtain ⟨t1, vs, t2, hv, hp, hnodup, hrun, _, _, _⟩ := submitOrdered_total t hwf hroot
    exact ⟨t1, vs, t2, hv, hp, hnodup, hrun⟩

theorem walks_terminate_witness :
    EditReachable chain4 ∧
    ((∀ i p, parentOf chain4.nodeData i = some p → p < i) ∧
    (∀ c, c < chain4.nodeData.length → ∃ t1, chain4.markDirty c = some t1) ∧
    (∀ (p : Nat) (nd : Node) (c : Nat), chain4.nodeData[p]? = some nd → c ∈ nd.children →
      p < c) ∧
    ∃ t1 vs t2,
      submitNodeVisits chain4.nodeData.length (chain4.beginCaching CachePtr.final) chain4.root
        = some (t1, vs) ∧
      Tree.submitNode chain4.nodeData.length (chain4.beginCaching CachePtr.final) chain4.root
        = some t1 ∧
      vs.Nodup ∧ chain4.submitOrderedTreeNodes = some t2) :=
  ⟨chain4_editReachable, walks_terminate chain4 chain4_editReachable⟩

/-! ## Rebuilds of the traversal -/

/-- Forgetting the rebuild list of the instrumented traversal gives `Tree.submitNode`. -/
theorem submitNodeRebuilds_fst :
    ∀ (fuel : Nat) (t : Tree) (i : Nat),
      (submitNodeRebuilds fuel t i).map Prod.fst = Tree.submitNode fuel t i := by
  intro fuel
  induction fuel with
  | zero => intro t i; rfl
  | succ f ih =>
    intro t i
    have hloop := forEachVisits_fst (submitNodeRebuilds f) (Tree.submitNode f) ih
    rw [submitNodeRebuilds, Tree.submitNode]
    cases hnd : t.nodeData[i]? with
    | none => rfl
    | some nd =>
      simp only
      cases hsc : nd.subtreeCache with
      | none =>
        simp only
        cases h1 : t.submitToBack nd.id with
        | none => rfl
        | some t1 =>
          simp only
          exact hloop nd.children t1
      | some k =>
        simp only
        cases hd : (t.mem (CachePtr.user k)).getDirty with
        | false =>
          simp only [Bool.false_eq_true, if_false]
          cases h4 : t.submitCache (CachePtr.user k) with
          | none => rfl
          | some t4 => rfl
        | true =>
          simp only [if_true]
          cases h1 : (t.beginCaching (CachePtr.user k)).submitToBack nd.id with
          | none => rfl
          | some t1 =>
            simp only
            rw [← hloop nd.children t1]
            cases h2 : forEachVisits (submitNodeRebuilds f) t1 nd.children with
            | none => rfl
            | some r2 =>
              obtain ⟨t2, rs⟩ := r2
              simp only [Option.map_some']
              cases h3 : t2.endCaching (CachePtr.user k) with
              | none => rfl
              | some t3 =>
                simp only
                cases h4 : t3.submitCache (CachePtr.user k) with
                | none => rfl
                | some t4 => rfl

/-- A loop whose body records nothing and keeps a property of the state records
nothing and keeps the property. -/
theorem forEachVisits_nil (body : Tree → Nat → Option (Tree × List Nat)) (P : Tree → Prop) :
    ∀ (cs : List Nat) (t : Tree), P t →
      (∀ c ∈ cs, ∀ t0 : Tree, P t0 → ∃ t1, body t0 c = some (t1, []) ∧ P t1) →
      ∃ t2, forEachVisits body t cs = some (t2, []) ∧ P t2 := by
  intro cs
  induction cs with
  | nil =>
    intro t ht _
    exact ⟨t, rfl, ht⟩
  | cons c cs ih =>
    intro t ht hbody
    obtain ⟨t1, hrun1, ht1⟩ := hbody c (List.mem_cons_self _ _) t ht
    obtain ⟨t2, hrun2, ht2⟩ := ih t1 ht1 (fun x hx => hbody x (List.mem_cons_of_mem _ hx))
    refine ⟨t2, ?_, ht2⟩
    rw [forEachVisits, hrun1]
    simp only
    rw [hrun2]
    rfl

/-- When every attached cache is clean, `Tree::submitNode` rebuilds no cache: it returns
with an empty rebuild list, and keeps the arena, the stack and every dirty flag. -/
theorem submitNodeRebuilds_clean (nodes : List Node) (hwf : ArenaWF nodes)
    (top : CachePtr) (rest : List CachePtr) (flags : CachePtr → Bool)
    (hclean : ∀ i k, cacheAt nodes i = some k → flags (CachePtr.user k) = false) :
    ∀ (fuel : Nat) (t : Tree) (i : Nat),
      (t.nodeData = nodes ∧ t.cacheQueue = top :: rest ∧ ∀ p, (t.mem p).dirty = flags p) →
      i < nodes.length → nodes.length - i ≤ fuel →
      ∃ t1, submitNodeRebuilds fuel t i = some (t1, []) ∧
        (t1.nodeData = nodes ∧ t1.cacheQueue = top :: rest ∧
          ∀ p, (t1.mem p).dirty = flags p) := by
  intro fuel
  induction fuel with
  | zero =>
    intro t i _ hi hf
    omega
  | succ f ih =>
    intro t i ht hi hf
    obtain ⟨hn, hq, hfl⟩ := ht
    obtain ⟨nd, hnd0⟩ : ∃ nd, nodes[i]? = some nd :=
      ⟨nodes[i], List.getElem?_eq_getElem hi⟩
    have hnd : t.nodeData[i]? = some nd := by rw [hn]; exact hnd0
    have hupd : ∀ (c : Cache), c.dirty = (t.mem top).dirty →
        ∀ p, (Function.update t.mem top c p).dirty = flags p := by
      intro c hc p
      by_cases hp : p = top
      · subst hp; rw [Function.update_same, hc]; exact hfl p
      · rw [Function.update_noteq hp]; exact hfl p
    rw [submitNodeRebuilds, hnd]
    simp only
    cases hsc : nd.subtreeCache with
    | none =>
      simp only
      rw [submitToBack_eq hq]
      simp only
      exact forEachVisits_nil (submitNodeRebuilds f)
        (fun t0 => t0.nodeData = nodes ∧ t0.cacheQueue = top :: rest ∧
          ∀ p, (t0.mem p).dirty = flags p) nd.children _
        ⟨hn, hq, hupd _ rfl⟩
        (fun c hc t0 ht0 =>
          ih t0 c ht0 (hwf.child_lt i nd c hnd0 hc)
            (by have := hwf.child_gt hnd0 hc; omega))
    | some k =>
      simp only
      have hk : (t.mem (CachePtr.user k)).getDirty = false := by
        show (t.mem (CachePtr.user k)).dirty = false
        rw [hfl]
        exact hclean i k (by rw [cacheAt_of_getElem hnd0, hsc])
      simp only [hk, Bool.false_eq_true, if_false]
      rw [submitCache_eq hq]
      exact ⟨_, rfl, hn, hq, hupd _ rfl⟩

/-- Claim C6 (no redundant recomputation).  In every state reachable under the caller
contract two traversals in a row both return; the second one starts with every attached
cache clean, rebuilds no cache (the list of the nodes whose cache it rebuilds is empty),
leaves the dirty flag and the data of every caller-owned cache as they were, and
produces the same output sequence as the first. -/
theorem second_submit_rebuilds_nothing (t : Tree) (h : Reachable t) :
    ∃ t1 t2, t.submitOrderedTreeNodes = some t1 ∧ t1.submitOrderedTreeNodes = some t2 ∧
      AllClean t1 ∧
      (∀ k, t2.mem (CachePtr.user k) = t1.mem (CachePtr.user k)) ∧
      t2.nodeData = t1.nodeData ∧
      t2.finalCache.getCachedData = t1.finalCache.getCachedData ∧
      ∃ s, submitNodeRebuilds t1.nodeData.length (t1.beginCaching CachePtr.final) t1.root
          = some (s, []) ∧
        Tree.submitNode t1.nodeData.length (t1.beginCaching CachePtr.final) t1.root = some s ∧
        s.endCaching CachePtr.final = some t2 := by
  have hinv := Reachable.inv h
  obtain ⟨t1, hrun1, hn1, hr1, _, _, hout1, _, hclean1⟩ :=
    submitOrdered_spec hinv.wf hinv.noalias hinv.valid
  have hinv1 := submitOrdered_inv hinv hrun1
  have hall := hclean1 hinv.upClosed
  obtain ⟨t2, hrun2, hn2, _, _, _, hout2, hframe2, _⟩ :=
    submitOrdered_spec hinv1.wf hinv1.noalias hinv1.valid
  refine ⟨t1, t2, hrun1, hrun2, hall, ?_, hn2, ?_, ?_⟩
  · intro k
    rcases hframe2 k with heq | ⟨m, hm, hcl, hd⟩
    · exact heq
    · have hcl1 := hall m k hm
      exact Cache.ext_fields (hcl.trans hcl1.symm) (hd.trans (hinv1.valid m k hm hcl1).symm)
  · show (t2.mem CachePtr.final).cacheData = (t1.mem CachePtr.final).cacheData
    rw [hout1, hout2, hn1, hr1]
  · obtain ⟨s, hreb, _⟩ := submitNodeRebuilds_clean t1.nodeData hinv1.wf.arena CachePtr.final
      t1.cacheQueue (fun p => ((t1.beginCaching CachePtr.final).mem p).dirty)
      (fun i k hik => by
        have hsame : (t1.beginCaching CachePtr.final).mem (CachePtr.user k)
            = t1.mem (CachePtr.user k) := by
          simp [Tree.beginCaching]
        show ((t1.beginCaching CachePtr.final).mem (CachePtr.user k)).dirty = false
        rw [hsame]
        exact hall i k hik)
      t1.nodeData.length (t1.beginCaching CachePtr.final) t1.root
      ⟨rfl, rfl, fun _ => rfl⟩
      (by rw [hinv1.wf.root_eq]; exact hinv1.wf.arena.nonempty) (Nat.sub_le _ _)
    have hplain : Tree.submitNode t1.nodeData.length (t1.beginCaching CachePtr.final) t1.root
        = some s := by
      rw [← submitNodeRebuilds_fst, hreb]
      rfl
    refine ⟨s, hreb, hplain, ?_⟩
    have hrun2' := hrun2
    unfold Tree.submitOrderedTreeNodes at hrun2'
    rw [hplain] at hrun2'
    exact hrun2'

theorem second_submit_rebuilds_nothing_witness :
    Reachable chain4 ∧
    (∃ t1 t2, chain4.submitOrderedTreeNodes = some t1 ∧ t1.submitOrderedTreeNodes = some t2 ∧
      AllClean t1 ∧
      (∀ k, t2.mem (CachePtr.user k) = t1.mem (CachePtr.user k)) ∧
      t2.nodeData = t1.nodeData ∧
      t2.finalCache.getCachedData = t1.finalCache.getCachedData ∧
      ∃ s, submitNodeRebuilds t1.nodeData.length (t1.beginCaching CachePtr.final) t1.root
          = some (s, []) ∧
        Tree.submitNode t1.nodeData.length (t1.beginCaching CachePtr.final) t1.root = some s ∧
        s.endCaching CachePtr.final = some t2) ∧
    (submitNodeRebuilds chain4.nodeData.length (chain4.beginCaching CachePtr.final)
      chain4.root).map Prod.snd = some [0, 1] ∧
    (submitNodeRebuilds chain5.nodeData.length (chain5.beginCaching CachePtr.final)
      chain5.root).map Prod.snd = some [] :=
  ⟨chain4_reachable, second_submit_rebuilds_nothing chain4 chain4_reachable, rfl, rfl⟩

end PartialUpdateTree
